import Mathlib

/-!
# MapReduce coordinator and worker (`src/mr/coordinator.go`, `src/mr/worker.go`)

A shallow embedding of the coordinator of the `mr` package and of the map and
reduce steps of its worker, and a verification of the task lifecycle.

Modelling conventions

* Every method of `Master` that takes the global mutex `mu` is one atomic
  function on the coordinator state.
* A Go panic (nil dereference, index out of range, `make` with a negative
  or too large size) and a channel send that can never complete are results
  of type `Fault`; a normal return is `Except.ok`.
* The platform is a 64-bit one (`int` has 64 bits, the runtime allocates at
  most `2^48` bytes at once); an allocation that the runtime accepts is
  assumed to find the memory it asks for.
* `*Task` and `*MasterTask` pointers are modelled by value: every
  `MasterTask` is referenced from exactly one ledger slot, and a `Task` is
  never written after its creation (`AssignTask` copies it into the reply).
* The buffered channel `TaskQueue` is a FIFO list together with its capacity.
* The Go map `TaskMeta` is an association list; the order in which `range`
  visits a map is unspecified in Go, so the timeout scan takes the visiting
  order as an argument.
* Instants are integers (nanoseconds counted from the zero `time.Time`).
  `time.Time.Sub` saturates at the ends of `int64`; the saturation never
  changes the outcome of a comparison with thirty seconds, so plain integer
  subtraction is used.
-/

namespace mr

/-! ## Data model -/

/-- The type `MasterTaskStatus` of coordinator.go. -/
inductive MasterTaskStatus where
  | Idle
  | InProgress
  | Completed
deriving DecidableEq

/-- The type `State` of coordinator.go (`Map = 0, Reduce, Exit, Wait`). -/
inductive State where
  | Map
  | Reduce
  | Exit
  | Wait
deriving DecidableEq

/-- The struct `Task`. -/
structure Task where
  Input : String
  TaskState : State
  NReducer : Int
  TaskNumber : Int
  Intermediates : List String
  Output : String
deriving DecidableEq

/-- The struct `MasterTask`: one ledger entry. -/
structure MasterTask where
  TaskStatus : MasterTaskStatus
  StartTime : Int
  TaskReference : Task
deriving DecidableEq

/-- The struct `Master`.  `TaskQueue` holds the buffered content of the
channel (head = next task received) and `QueueCap` its capacity. -/
structure Master where
  TaskQueue : List Task
  QueueCap : Nat
  TaskMeta : List (Int × MasterTask)
  MasterPhase : State
  NReduce : Int
  InputFiles : List String
  Intermediates : List (List String)
deriving DecidableEq

/-- Abnormal outcomes of a coordinator function. -/
inductive Fault where
  /-- A field access `m.TaskMeta[k].F` with no entry for `k`: nil pointer dereference. -/
  | nilDeref
  /-- An index `m.Intermediates[i]` with `i` out of range. -/
  | indexOutOfRange
  /-- The call `make([][]string, n)` with `n < 0`. -/
  | makeNegativeLen
  /-- A send on the full channel while `mu` is held: nobody can receive. -/
  | blocked
  /-- An integer division or remainder by zero. -/
  | divideByZero
  /-- The call `make(chan *Task, n)` or `make([][]string, n)` with `n` larger
  than the runtime allows (`makechan: size out of range`, `makeslice: len out
  of range`). -/
  | makeOutOfRange
deriving DecidableEq

/-- The zero value of `time.Time`. -/
def zeroTime : Int := 0

/-- The duration `time.Second`, in nanoseconds. -/
def second : Int := 1000000000

/-- The zero value of `Task` with the given `TaskState`
(`Task{TaskState: s}`). -/
def Task.ofState (s : State) : Task :=
  { Input := "", TaskState := s, NReducer := 0, TaskNumber := 0,
    Intermediates := [], Output := "" }

/-! ## The ledger as a map -/

/-- The map read `m.TaskMeta[k]` (`none` stands for the nil pointer). -/
def lookup (k : Int) : List (Int × MasterTask) → Option MasterTask
  | [] => none
  | (k', v) :: rest => if k' = k then some v else lookup k rest

/-- The map write `m.TaskMeta[k] = v`, also used for a write through the
pointer stored at key `k`. -/
def store (k : Int) (v : MasterTask) : List (Int × MasterTask) → List (Int × MasterTask)
  | [] => [(k, v)]
  | (k', v') :: rest => if k' = k then (k, v) :: rest else (k', v') :: store k v rest

/-- The keys of the ledger. -/
def keys (l : List (Int × MasterTask)) : List Int := l.map Prod.fst

/-! ## Coordinator functions -/

/-- The channel send `m.TaskQueue <- t` executed while `mu` is held. -/
def send (m : Master) (t : Task) : Except Fault Master :=
  if m.TaskQueue.length < m.QueueCap then
    .ok { m with TaskQueue := m.TaskQueue ++ [t] }
  else
    .error .blocked

/-- The function `max` of coordinator.go. -/
def max (a b : Int) : Int := if a > b then a else b

/-- The method `Done`. -/
def Done (m : Master) : Bool := decide (m.MasterPhase = State.Exit)

/-- The method `allTaskDone`. -/
def allTaskDone (m : Master) : Bool :=
  m.TaskMeta.all (fun e => decide (e.2.TaskStatus = MasterTaskStatus.Completed))

/-- The loop of `createMapTask`, from index `idx` on. -/
def createMapTaskLoop : Nat → List String → Master → Except Fault Master
  | _, [], m => .ok m
  | idx, filename :: rest, m =>
    let taskMeta : Task :=
      { Input := filename, TaskState := State.Map, NReducer := m.NReduce,
        TaskNumber := (idx : Int), Intermediates := [], Output := "" }
    match send m taskMeta with
    | .error e => .error e
    | .ok m1 =>
      let entry : MasterTask :=
        { TaskStatus := MasterTaskStatus.Idle, StartTime := zeroTime,
          TaskReference := taskMeta }
      createMapTaskLoop (idx + 1) rest
        { m1 with TaskMeta := store (idx : Int) entry m1.TaskMeta }

/-- The method `createMapTask`. -/
def createMapTask (m : Master) : Except Fault Master :=
  createMapTaskLoop 0 m.InputFiles m

/-- The constant `maxAlloc` of the Go runtime on a 64-bit platform (48 bits
of heap address): the largest size, in bytes, of one allocation. -/
def maxAlloc : Int := 281474976710656

/-- The constant `hchanSize` of the Go runtime: the size of a channel
header. -/
def hchanSize : Int := 96

/-- The function `MakeMaster`, up to the start of the server and of the
timeout monitor.  The composite literal evaluates `make(chan *Task, ...)`
(8 bytes per slot, checked by `makechan` against `maxAlloc - hchanSize`) and
then `make([][]string, nReduce)` (24 bytes per slot, checked by `makeslice`
against `maxAlloc`). -/
def MakeMaster (files : List String) (nReduce : Int) : Except Fault Master :=
  if 8 * max nReduce (files.length : Int) > maxAlloc - hchanSize then
    .error .makeOutOfRange
  else if nReduce < 0 then
    .error .makeNegativeLen
  else if 24 * nReduce > maxAlloc then
    .error .makeOutOfRange
  else
    createMapTask
      { TaskQueue := [],
        QueueCap := (max nReduce (files.length : Int)).toNat,
        TaskMeta := [],
        MasterPhase := State.Map,
        NReduce := nReduce,
        InputFiles := files,
        Intermediates := List.replicate nReduce.toNat [] }

/-- The loop of `createReduceTask`, from index `idx` on. -/
def createReduceTaskLoop : Nat → List (List String) → Master → Except Fault Master
  | _, [], m => .ok m
  | idx, files :: rest, m =>
    let taskMeta : Task :=
      { Input := "", TaskState := State.Reduce, NReducer := m.NReduce,
        TaskNumber := (idx : Int), Intermediates := files, Output := "" }
    match send m taskMeta with
    | .error e => .error e
    | .ok m1 =>
      let entry : MasterTask :=
        { TaskStatus := MasterTaskStatus.Idle, StartTime := zeroTime,
          TaskReference := taskMeta }
      createReduceTaskLoop (idx + 1) rest
        { m1 with TaskMeta := store (idx : Int) entry m1.TaskMeta }

/-- The method `createReduceTask`. -/
def createReduceTask (m : Master) : Except Fault Master :=
  createReduceTaskLoop 0 m.Intermediates { m with TaskMeta := [] }

/-- The method `AssignTask`, called at instant `now`; the result is the new
state and the reply (the returned error is always nil). -/
def AssignTask (m : Master) (now : Int) : Except Fault (Master × Task) :=
  match m.TaskQueue with
  | head :: rest =>
    match lookup head.TaskNumber m.TaskMeta with
    | none => .error .nilDeref
    | some e =>
      let e1 : MasterTask :=
        { e with TaskStatus := MasterTaskStatus.InProgress, StartTime := now }
      .ok ({ m with TaskQueue := rest, TaskMeta := store head.TaskNumber e1 m.TaskMeta },
           head)
  | [] =>
    if m.MasterPhase = State.Exit then
      .ok (m, Task.ofState State.Exit)
    else
      .ok (m, Task.ofState State.Wait)

/-- The method `TaskCompleted`; the result is the new state and the argument
of the goroutine `processTaskResult` it spawns, if any (the returned error is
always nil). -/
def TaskCompleted (m : Master) (task : Task) : Except Fault (Master × Option Task) :=
  if task.TaskState ≠ m.MasterPhase then
    .ok (m, none)
  else
    match lookup task.TaskNumber m.TaskMeta with
    | none => .error .nilDeref
    | some e =>
      if e.TaskStatus = MasterTaskStatus.Completed then
        .ok (m, none)
      else
        let e1 : MasterTask := { e with TaskStatus := MasterTaskStatus.Completed }
        .ok ({ m with TaskMeta := store task.TaskNumber e1 m.TaskMeta }, some task)

/-- The loop `for reduceTaskId, filePath := range task.Intermediates` of
`processTaskResult`, from index `i` on. -/
def collect : Nat → List String → List (List String) → Except Fault (List (List String))
  | _, [], slots => .ok slots
  | i, filePath :: rest, slots =>
    match slots.get? i with
    | none => .error .indexOutOfRange
    | some slot => collect (i + 1) rest (slots.set i (slot ++ [filePath]))

/-- The method `processTaskResult`. -/
def processTaskResult (m : Master) (task : Task) : Except Fault Master :=
  match task.TaskState with
  | State.Map =>
    match collect 0 task.Intermediates m.Intermediates with
    | .error e => .error e
    | .ok slots =>
      let m1 := { m with Intermediates := slots }
      if allTaskDone m1 then
        match createReduceTask m1 with
        | .error e => .error e
        | .ok m2 => .ok { m2 with MasterPhase := State.Reduce }
      else
        .ok m1
  | State.Reduce =>
    if allTaskDone m then
      .ok { m with MasterPhase := State.Exit }
    else
      .ok m
  | _ => .ok m

/-- The body of the inner loop of `catchTimeOut` for the entry at key `k`. -/
def scanEntry (now : Int) (m : Master) (k : Int) : Except Fault Master :=
  match lookup k m.TaskMeta with
  | none => .ok m
  | some masterTask =>
    if masterTask.TaskStatus = MasterTaskStatus.InProgress
        ∧ now - masterTask.StartTime > 30 * second then
      match send m masterTask.TaskReference with
      | .error e => .error e
      | .ok m1 =>
        let e1 : MasterTask := { masterTask with TaskStatus := MasterTaskStatus.Idle }
        .ok { m1 with TaskMeta := store k e1 m1.TaskMeta }
    else
      .ok m

/-- The inner loop of `catchTimeOut`, visiting the keys in `order`. -/
def scanLoop (now : Int) : List Int → Master → Except Fault Master
  | [], m => .ok m
  | k :: ks, m =>
    match scanEntry now m k with
    | .error e => .error e
    | .ok m1 => scanLoop now ks m1

/-- One round of the outer loop of `catchTimeOut` after its sleep, at instant
`now`; the Boolean tells whether the loop goes on (`false`: it returned). -/
def catchTimeOut (m : Master) (now : Int) (order : List Int) : Except Fault (Master × Bool) :=
  if m.MasterPhase = State.Exit then
    .ok (m, false)
  else
    match scanLoop now order m with
    | .error e => .error e
    | .ok m1 => .ok (m1, true)

/-! ## The coordinator and its environment

The coordinator runs against workers (worker.go) that call `AssignTask`,
work on the task they received and call `TaskCompleted`, against the
goroutines `processTaskResult` spawned by `TaskCompleted`, and against its own
timeout monitor.  Each of these takes `mu`, so an execution is a sequence of
atomic events. -/

/-- What happened in an execution (history, never read by the code). -/
inductive Obs where
  /-- The method `AssignTask` replied with this Map or Reduce task. -/
  | assigned (t : Task)
  /-- The method `TaskCompleted` accepted this report and spawned `processTaskResult`. -/
  | accepted (t : Task)
  /-- The goroutine `processTaskResult` ran on this report. -/
  | processed (t : Task)
  /-- The goroutine `processTaskResult` called `createReduceTask`. -/
  | built
  /-- The timeout scan sent this task to the queue again. -/
  | requeued (t : Task)
deriving DecidableEq

/-- The coordinator with its environment. -/
structure Sys where
  /-- The state guarded by `mu`. -/
  m : Master
  /-- The current instant. -/
  now : Int
  /-- The earliest instant of the next timeout scan (the end of the
  monitor's sleep); `none` once `catchTimeOut` has returned. -/
  monitor : Option Int
  /-- The arguments of the spawned `processTaskResult` goroutines that have
  not run yet. -/
  pending : List Task
  /-- The tasks handed to workers by `AssignTask` and not reported yet. -/
  handed : List Task
  /-- The history of the execution, oldest first. -/
  log : List Obs
deriving DecidableEq

/-- The atomic events of an execution. -/
inductive Event where
  /-- Time advances by `d` nanoseconds. -/
  | tick (d : Nat)
  /-- A worker calls `AssignTask` (`getTask` of worker.go). -/
  | assign
  /-- The worker holding the `i`-th handed task finishes it and calls
  `TaskCompleted`; `locs` is the `Intermediates` field of its report. -/
  | report (i : Nat) (locs : List String)
  /-- Some client calls `TaskCompleted` with an arbitrary task. -/
  | call (t : Task)
  /-- The `i`-th pending `processTaskResult` goroutine runs. -/
  | process (i : Nat)
  /-- The timeout monitor wakes up; `order` is the order in which `range`
  visits the ledger. -/
  | scan (order : List Int)
deriving DecidableEq

/-- The state right after `MakeMaster` returned `m` at instant `t0`: the
monitor has been started and sleeps five seconds. -/
def Sys.start (m : Master) (t0 : Int) : Sys :=
  { m := m, now := t0, monitor := some (t0 + 5 * second), pending := [], handed := [],
    log := [] }

/-- The report a worker sends for the task `h` it was handed: `mapper` replaces
`Intermediates` by the list of the `NReducer` files it wrote, `reducer` sends
the task back as received. -/
def workerReport (h : Task) (locs : List String) : Option Task :=
  match h.TaskState with
  | State.Map =>
    if locs.length = h.NReducer.toNat then some { h with Intermediates := locs } else none
  | State.Reduce =>
    if locs = h.Intermediates then some h else none
  | _ => none

/-- Whether the event can happen in the state.  A worker reports a task it
holds; a goroutine runs once spawned; the monitor scans when its sleep of (at
least) five seconds is over, visiting every ledger key once. -/
def enabled (s : Sys) : Event → Bool
  | Event.tick _ => true
  | Event.assign => true
  | Event.report i locs =>
    match s.handed.get? i with
    | none => false
    | some h => (workerReport h locs).isSome
  | Event.call _ => true
  | Event.process i => decide (i < s.pending.length)
  | Event.scan order =>
    match s.monitor with
    | none => false
    | some t0 =>
      decide (t0 ≤ s.now) &&
        (decide (s.m.MasterPhase = State.Exit) || decide (order.Perm (keys s.m.TaskMeta)))

/-- The events of an execution in which every `TaskCompleted` call comes from
a worker reporting a task it was handed. -/
def Event.honest : Event → Bool
  | Event.call _ => false
  | _ => true

/-- The effect of a `TaskCompleted` call with argument `t`. -/
def Sys.completed (s : Sys) (handed : List Task) (t : Task) : Except Fault Sys :=
  match TaskCompleted s.m t with
  | .error e => .error e
  | .ok (m1, none) => .ok { s with m := m1, handed := handed }
  | .ok (m1, some t1) =>
    .ok { s with m := m1, handed := handed, pending := s.pending ++ [t1],
                 log := s.log ++ [Obs.accepted t1] }

/-- Whether `processTaskResult m t` reaches its call of `createReduceTask`. -/
def buildsReduce (m : Master) (t : Task) : Bool :=
  match t.TaskState with
  | State.Map =>
    match collect 0 t.Intermediates m.Intermediates with
    | .error _ => false
    | .ok slots => allTaskDone { m with Intermediates := slots }
  | _ => false

/-- The effect of an event. -/
def step (s : Sys) : Event → Except Fault Sys
  | Event.tick d => .ok { s with now := s.now + (d : Int) }
  | Event.assign =>
    match AssignTask s.m s.now with
    | .error e => .error e
    | .ok (m1, reply) =>
      if reply.TaskState = State.Map ∨ reply.TaskState = State.Reduce then
        .ok { s with m := m1, handed := s.handed ++ [reply],
                     log := s.log ++ [Obs.assigned reply] }
      else
        .ok { s with m := m1 }
  | Event.report i locs =>
    match s.handed.get? i with
    | none => .ok s
    | some h =>
      match workerReport h locs with
      | none => .ok s
      | some t => s.completed (s.handed.eraseIdx i) t
  | Event.call t => s.completed s.handed t
  | Event.process i =>
    match s.pending.get? i with
    | none => .ok s
    | some t =>
      match processTaskResult s.m t with
      | .error e => .error e
      | .ok m1 =>
        .ok { s with m := m1, pending := s.pending.eraseIdx i,
                     log := s.log ++ Obs.processed t ::
                       (if buildsReduce s.m t then [Obs.built] else []) }
  | Event.scan order =>
    match catchTimeOut s.m s.now order with
    | .error e => .error e
    | .ok (m1, true) =>
      .ok { s with m := m1, monitor := some (s.now + 5 * second),
                   log := s.log ++ (m1.TaskQueue.drop s.m.TaskQueue.length).map Obs.requeued }
    | .ok (m1, false) => .ok { s with m := m1, monitor := none }

/-- The states of the executions that start with `MakeMaster files nReduce`. -/
inductive Reachable (files : List String) (nReduce : Int) : Sys → Prop where
  | start (m : Master) (t0 : Int) (h : MakeMaster files nReduce = .ok m) :
      Reachable files nReduce (Sys.start m t0)
  | next (s : Sys) (e : Event) (s1 : Sys) (hs : Reachable files nReduce s)
      (he : enabled s e = true) (h : step s e = .ok s1) : Reachable files nReduce s1

/-- The states of the executions in which workers report only tasks they were
handed. -/
inductive HonestReachable (files : List String) (nReduce : Int) : Sys → Prop where
  | start (m : Master) (t0 : Int) (h : MakeMaster files nReduce = .ok m) :
      HonestReachable files nReduce (Sys.start m t0)
  | next (s : Sys) (e : Event) (s1 : Sys) (hs : HonestReachable files nReduce s)
      (he : enabled s e = true) (hh : e.honest = true) (h : step s e = .ok s1) :
      HonestReachable files nReduce s1

/-- Runs a list of events; `none` when an event is not enabled, is not honest
or ends in a fault. -/
def exec (s : Sys) : List Event → Option Sys
  | [] => some s
  | e :: es =>
    if enabled s e && e.honest then
      match step s e with
      | .error _ => none
      | .ok s1 => exec s1 es
    else
      none

/-- Runs a list of events from the state built by `MakeMaster files nReduce`
at instant `0`. -/
def execFrom (files : List String) (nReduce : Int) (es : List Event) : Option Sys :=
  match MakeMaster files nReduce with
  | .error _ => none
  | .ok m => exec (Sys.start m 0) es

/-! ## Concrete states used as instances -/

/-- A Map task as `createMapTask` builds it. -/
def mapTask (filename : String) (nReduce : Int) (idx : Int) : Task :=
  { Input := filename, TaskState := State.Map, NReducer := nReduce, TaskNumber := idx,
    Intermediates := [], Output := "" }

/-- A Reduce task as `createReduceTask` builds it. -/
def reduceTask (nReduce : Int) (idx : Int) (files : List String) : Task :=
  { Input := "", TaskState := State.Reduce, NReducer := nReduce, TaskNumber := idx,
    Intermediates := files, Output := "" }

/-- A coordinator in the Reduce phase with one Reduce task, handed out at
instant `0`. -/
def sampleReduce : Master :=
  { TaskQueue := [], QueueCap := 1,
    TaskMeta := [(0, { TaskStatus := MasterTaskStatus.InProgress, StartTime := 0,
                       TaskReference := reduceTask 1 0 ["/w/mr-0-0"] })],
    MasterPhase := State.Reduce, NReduce := 1, InputFiles := ["a"],
    Intermediates := [["/w/mr-0-0"]] }

/-- A coordinator in the Map phase with the task of file `a` handed out and
the task of file `b` still queued. -/
def sampleMap : Master :=
  { TaskQueue := [mapTask "b" 1 1], QueueCap := 2,
    TaskMeta := [(0, { TaskStatus := MasterTaskStatus.InProgress, StartTime := 0,
                       TaskReference := mapTask "a" 1 0 }),
                 (1, { TaskStatus := MasterTaskStatus.Idle, StartTime := zeroTime,
                       TaskReference := mapTask "b" 1 1 })],
    MasterPhase := State.Map, NReduce := 1, InputFiles := ["a", "b"],
    Intermediates := [[]] }

/-! ## Concrete executions -/

/-- Thirty-five seconds, in nanoseconds. -/
def sec35 : Nat := 35000000000

/-- The report of the Map task of file `a` (task 0) by a worker whose working
directory is `/w`, with one reduce partition. -/
def reportA : Task := { mapTask "a" 1 0 with Intermediates := ["/w/mr-0-0"] }

/-- The reports of Map task `k` that `processTaskResult` has processed. -/
def foldedReports (log : List Obs) (k : Int) : List Task :=
  log.filterMap (fun o =>
    match o with
    | Obs.processed t =>
      if t.TaskState = State.Map ∧ t.TaskNumber = k then some t else none
    | _ => none)

/-- Files `a`, `b` and one reduce partition.  Task 0 is handed to a worker
that is slow; the scan at 35 s puts it back in the queue; the slow worker then
reports it and the report is processed; two more `AssignTask` calls hand out
task 1 and, again, task 0 (still queued); the second worker reports task 0 and
that report is processed as well. -/
def traceDuplicate : List Event :=
  [Event.assign, Event.tick sec35, Event.scan [0, 1],
   Event.report 0 ["/w/mr-0-0"], Event.process 0,
   Event.assign, Event.assign,
   Event.report 1 ["/w/mr-0-0"], Event.process 0]

/-- Files `a`, `b` and one reduce partition.  Both Map tasks are handed out and
reported; the goroutine spawned for task 1 runs before the one spawned for
task 0. -/
def traceEarlyBuild : List Event :=
  [Event.assign, Event.assign,
   Event.report 0 ["/w/mr-0-0"], Event.report 0 ["/w/mr-1-0"],
   Event.process 1]

/-- File `a` and one reduce partition.  The Map task is done; the Reduce task
is handed to a slow worker, put back in the queue by the scan at 35 s, and
then reported by the slow worker; the report is processed. -/
def traceExit : List Event :=
  [Event.assign, Event.report 0 ["/w/mr-0-0"], Event.process 0,
   Event.assign, Event.tick sec35, Event.scan [0],
   Event.report 0 ["/w/mr-0-0"], Event.process 0]

/-- File `a` and one reduce partition.  The Map task is handed to a slow
worker and put back in the queue by the scan at 35 s. -/
def traceRequeued : List Event :=
  [Event.assign, Event.tick sec35, Event.scan [0]]

/-- Files `a`, `b` and one reduce partition.  Task 0 is handed to a slow
worker, put back in the queue by the scan at 35 s and then reported by the
slow worker; task 1 is handed out, reported and processed, which builds the
Reduce task behind the Map task 0 that is still queued; the next `AssignTask`
hands out that Map task. -/
def traceStale : List Event :=
  [Event.assign, Event.tick sec35, Event.scan [0, 1],
   Event.report 0 ["/w/mr-0-0"], Event.process 0,
   Event.assign, Event.report 0 ["/w/mr-1-0"], Event.process 0,
   Event.assign]

/-- The status of the ledger entry keyed by `k`, if there is one. -/
def statusAt (m : Master) (k : Int) : Option MasterTaskStatus :=
  (lookup k m.TaskMeta).map (fun e => e.TaskStatus)

/-- The Reduce task built at the end of `traceStale`. -/
def reduceAB : Task := reduceTask 1 0 ["/w/mr-0-0", "/w/mr-1-0"]

/-- The state `Sys.start sampleMap 0` after one `AssignTask` call. -/
def sampleMapAssigned : Sys :=
  { m := { sampleMap with
            TaskQueue := [],
            TaskMeta := [(0, { TaskStatus := MasterTaskStatus.InProgress, StartTime := 0,
                               TaskReference := mapTask "a" 1 0 }),
                         (1, { TaskStatus := MasterTaskStatus.InProgress, StartTime := 0,
                               TaskReference := mapTask "b" 1 1 })] },
    now := 0, monitor := some (5 * second), pending := [],
    handed := [mapTask "b" 1 1], log := [Obs.assigned (mapTask "b" 1 1)] }

/-- The keys of a ledger with, for each key, the `TaskState` and the
`TaskNumber` of the task its entry refers to. -/
def ledgerShape (l : List (Int × MasterTask)) : List (Int × State × Int) :=
  l.map (fun e => (e.1, e.2.TaskReference.TaskState, e.2.TaskReference.TaskNumber))

/-- The shape of the ledger of a phase with `n` tasks: keys `0 .. n-1`, the
entry at key `i` referring to task number `i` of that phase. -/
def phaseShape (ph : State) (n : Nat) : List (Int × State × Int) :=
  (List.range n).map (fun i => ((i : Int), ph, (i : Int)))

/-- The invariant behind the phase gates: the index keeps its `nReduce`
slots; as long as `createReduceTask` has not run the phase is `Map`, the
ledger is the one built by `createMapTask` and only Map reports are pending;
once it has run the ledger is one built by `createReduceTask`. -/
structure Inv (files : List String) (nReduce : Int) (s : Sys) : Prop where
  slots : s.m.Intermediates.length = nReduce.toNat
  before : Obs.built ∉ s.log →
    s.m.MasterPhase = State.Map ∧
    ledgerShape s.m.TaskMeta = phaseShape State.Map files.length ∧
    ∀ t ∈ s.pending, t.TaskState = State.Map
  after : Obs.built ∈ s.log →
    ledgerShape s.m.TaskMeta = phaseShape State.Reduce nReduce.toNat

/-- File `a`, one reduce partition: the Map task has been handed out and
reported; its `processTaskResult` is pending. -/
def stateBeforeBuild : Sys :=
  (execFrom ["a"] 1 [Event.assign, Event.report 0 ["/w/mr-0-0"]]).getD (Sys.start sampleMap 0)

/-- File `a`, one reduce partition: the Map phase is over, the Reduce task has
been handed out and reported; its `processTaskResult` is pending. -/
def stateBeforeExit : Sys :=
  (execFrom ["a"] 1
    [Event.assign, Event.report 0 ["/w/mr-0-0"], Event.process 0,
     Event.assign, Event.report 0 ["/w/mr-0-0"]]).getD (Sys.start sampleMap 0)

/-- The state that follows `stateBeforeExit` when the pending goroutine runs. -/
def stateExit : Sys :=
  (exec stateBeforeExit [Event.process 0]).getD (Sys.start sampleMap 0)

/-! ## Closed forms used in the statements -/

/-- The ledger entry `&MasterTask{TaskStatus: Idle, TaskReference: &t}`. -/
def freshEntry (t : Task) : MasterTask :=
  { TaskStatus := MasterTaskStatus.Idle, StartTime := zeroTime, TaskReference := t }

/-- The Map tasks of the files `files`, numbered from `idx` on. -/
def mapTasks (nReduce : Int) : Nat → List String → List Task
  | _, [] => []
  | idx, f :: rest => mapTask f nReduce (idx : Int) :: mapTasks nReduce (idx + 1) rest

/-- The Reduce tasks of the index slots `slots`, numbered from `idx` on. -/
def reduceTasks (nReduce : Int) : Nat → List (List String) → List Task
  | _, [] => []
  | idx, files :: rest => reduceTask nReduce (idx : Int) files :: reduceTasks nReduce (idx + 1) rest

/-- The ledger that holds a fresh entry for each task of the list, keyed by
its `TaskNumber`. -/
def ledgerOf (ts : List Task) : List (Int × MasterTask) :=
  ts.map (fun t => (t.TaskNumber, freshEntry t))

/-- A coordinator in the Map phase whose only task (file `a`) is handed
out. -/
def sampleLast : Master :=
  { TaskQueue := [], QueueCap := 1,
    TaskMeta := [(0, { TaskStatus := MasterTaskStatus.InProgress, StartTime := 0,
                       TaskReference := mapTask "a" 1 0 })],
    MasterPhase := State.Map, NReduce := 1, InputFiles := ["a"],
    Intermediates := [[]] }

/-- The state `sampleLast` after `TaskCompleted` accepted the report of its
task. -/
def sampleAllDone : Master :=
  { sampleLast with
    TaskMeta := [(0, { TaskStatus := MasterTaskStatus.Completed, StartTime := 0,
                       TaskReference := mapTask "a" 1 0 })] }

/-- The state `sampleReduce` after `TaskCompleted` accepted the report of its
task. -/
def sampleReduceDone : Master :=
  { sampleReduce with
    TaskMeta := [(0, { TaskStatus := MasterTaskStatus.Completed, StartTime := 0,
                       TaskReference := reduceTask 1 0 ["/w/mr-0-0"] })] }

/-- The test of the timeout scan on a ledger entry at instant `now`. -/
def timedOut (now : Int) (e : MasterTask) : Bool :=
  decide (e.TaskStatus = MasterTaskStatus.InProgress ∧ now - e.StartTime > 30 * second)

/-- The entry after the scan has reset it. -/
def resetEntry (e : MasterTask) : MasterTask :=
  { e with TaskStatus := MasterTaskStatus.Idle }

/-- The tasks of the timed-out entries among the keys `order`, in that
order. -/
def requeuedTasks (now : Int) (ledger : List (Int × MasterTask)) (order : List Int) :
    List Task :=
  order.filterMap (fun k =>
    match lookup k ledger with
    | some e => if timedOut now e then some e.TaskReference else none
    | none => none)

/-- Files `a`, `b` and one reduce partition.  Both Map tasks are handed out and
reported; the goroutine spawned for task 1 runs first and builds the Reduce
task; the Reduce task is handed out, reported and processed, which sets the
phase to `Exit`; the goroutine spawned for Map task 0 has not run yet. -/
def traceLateFold : List Event :=
  [Event.assign, Event.assign,
   Event.report 0 ["/w/mr-0-0"], Event.report 0 ["/w/mr-1-0"],
   Event.process 1,
   Event.assign, Event.report 0 ["/w/mr-1-0"], Event.process 1]

/-- File `a` and one reduce partition.  The Map task is handed to a slow
worker, put back in the queue by the scan at 35 s, and then reported by the
slow worker. -/
def traceFullQueue : List Event :=
  [Event.assign, Event.tick sec35, Event.scan [0], Event.report 0 ["/w/mr-0-0"]]

/-- Files `a`, `b` and one reduce partition.  Both Map tasks are handed out;
task 0 is reported and processed; the scan at 35 s puts task 1 back in the
queue; the slow worker then reports task 1 and the report is processed, which
builds the Reduce task behind the Map task 1 that is still queued. -/
def traceStaleKey : List Event :=
  [Event.assign, Event.assign,
   Event.report 0 ["/w/mr-0-0"], Event.process 0,
   Event.tick sec35, Event.scan [0, 1],
   Event.report 0 ["/w/mr-1-0"], Event.process 0]

/-- The fault a result stands for, if it is one. -/
def faultOf {α : Type} : Except Fault α → Option Fault
  | .error e => some e
  | .ok _ => none

/-! ## The worker (`src/mr/worker.go`)

A Go string is a sequence of bytes; the keys and values that the map function
returns are modelled as byte lists.  The content of an intermediate file is
modelled by the sequence of records that `json.Encoder` wrote to it, each
string as a `json.Decoder` reads it back.  Reading the input file, the calls
of the map function and of `sort.Sort`, and the operations on temporary files
are inputs or are assumed to succeed.  File names and paths are for a Unix
system; they are Lean strings, which `filepath.Join` treats bytewise (only
the bytes of `/` and `.` matter to it). -/

/-- The struct `KeyValue` as `readFromLocalFile` decodes it from an
intermediate file: decoded strings are valid UTF-8, so they are Lean strings
(compared in the same bytewise order). -/
structure KeyValue where
  Key : String
  Value : String
deriving DecidableEq

/-- The struct `KeyValue` as the map function returns it: its strings are
arbitrary byte sequences. -/
structure KeyValueBytes where
  Key : List UInt8
  Value : List UInt8
deriving DecidableEq

/-- The bytes of a Lean string (its UTF-8 encoding). -/
def utf8Bytes (s : String) : List UInt8 :=
  s.data.flatMap String.utf8EncodeChar

/-- The constant `offset32` of `hash/fnv`. -/
def fnvOffset32 : Nat := 2166136261

/-- The constant `prime32` of `hash/fnv`. -/
def fnvPrime32 : Nat := 16777619

/-- The hash `fnv.New32a()` after `Write(bs)`, read by `Sum32()`: for each byte
the 32-bit state is xor-ed with the byte and then multiplied by `prime32`
modulo `2^32`. -/
def fnv32a (bs : List UInt8) : Nat :=
  bs.foldl (fun h b => ((h ^^^ b.toNat) * fnvPrime32) % 2 ^ 32) fnvOffset32

/-- The function `ihash`, on the bytes `[]byte(key)` of the key. -/
def ihash (key : List UInt8) : Int :=
  ((fnv32a key &&& 0x7fffffff : Nat) : Int)

/-- Whether the byte is a UTF-8 continuation byte (`0x80 .. 0xBF`). -/
def isCont (b : UInt8) : Bool :=
  decide (0x80 ≤ b.toNat ∧ b.toNat ≤ 0xBF)

/-- The width that `utf8.DecodeRune` finds for the rune at the head of the
bytes, and `0` when it reports `RuneError` (no byte, a byte that starts no
rune, a truncated, overlong, surrogate or out-of-range sequence). -/
def runeLen : List UInt8 → Nat
  | [] => 0
  | b0 :: rest =>
    if b0.toNat < 0x80 then 1
    else if b0.toNat < 0xC2 then 0
    else if b0.toNat < 0xE0 then
      match rest with
      | b1 :: _ => if isCont b1 then 2 else 0
      | [] => 0
    else if b0.toNat < 0xF0 then
      match rest with
      | b1 :: b2 :: _ =>
        if (if b0.toNat = 0xE0 then 0xA0 else 0x80) ≤ b1.toNat
            ∧ b1.toNat ≤ (if b0.toNat = 0xED then 0x9F else 0xBF)
            ∧ isCont b2 = true then 3 else 0
      | _ => 0
    else if b0.toNat < 0xF5 then
      match rest with
      | b1 :: b2 :: b3 :: _ =>
        if (if b0.toNat = 0xF0 then 0x90 else 0x80) ≤ b1.toNat
            ∧ b1.toNat ≤ (if b0.toNat = 0xF4 then 0x8F else 0xBF)
            ∧ isCont b2 = true ∧ isCont b3 = true then 4 else 0
      | _ => 0
    else 0

/-- The string that `json.Encoder` writes for a Go string, as `json.Decoder`
reads it back, from a position where the next `k` bytes continue a rune
already accepted: every byte at which `utf8.DecodeRune` reports an error is
replaced by the three bytes of U+FFFD, every other byte is kept. -/
def jsonStringFrom : Nat → List UInt8 → List UInt8
  | _, [] => []
  | k + 1, b :: rest => b :: jsonStringFrom k rest
  | 0, b :: rest =>
    match runeLen (b :: rest) with
    | 0 => 0xEF :: 0xBF :: 0xBD :: jsonStringFrom 0 rest
    | n + 1 => b :: jsonStringFrom n rest

/-- The string that `json.Encoder` writes for a Go string, as `json.Decoder`
reads it back. -/
def jsonString (s : List UInt8) : List UInt8 :=
  jsonStringFrom 0 s

/-- The function `utf8.Valid`, from a position where the next `k` bytes
continue a rune already accepted. -/
def validFrom : Nat → List UInt8 → Bool
  | _, [] => true
  | k + 1, _ :: rest => validFrom k rest
  | 0, b :: rest =>
    match runeLen (b :: rest) with
    | 0 => false
    | n + 1 => validFrom n rest

/-- The function `utf8.Valid`. -/
def validUTF8 (s : List UInt8) : Bool :=
  validFrom 0 s

/-- The record that `encoders[r].Encode(&kv)` appends to a file. -/
def jsonPair (kv : KeyValueBytes) : KeyValueBytes :=
  { Key := jsonString kv.Key, Value := jsonString kv.Value }

/-- The loop `for _, kv := range kva` of `mapper`: `encoders` holds, for each
temporary file, the records encoded to it so far.  The remainder `%` of Go
truncates towards zero (`Int.tmod`) and panics on a zero divisor. -/
def encodeAll (nReducer : Int) :
    List KeyValueBytes → List (List KeyValueBytes) → Except Fault (List (List KeyValueBytes))
  | [], encoders => .ok encoders
  | kv :: rest, encoders =>
    if nReducer = 0 then
      .error .divideByZero
    else
      let r := Int.tmod (ihash kv.Key) nReducer
      if r < 0 then
        .error .indexOutOfRange
      else
        match encoders.get? r.toNat with
        | none => .error .indexOutOfRange
        | some file => encodeAll nReducer rest (encoders.set r.toNat (file ++ [jsonPair kv]))

/-- The name `fmt.Sprintf("mr-%d-%d", task.TaskNumber, r)`. -/
def outputName (taskNumber : Int) (r : Nat) : String :=
  "mr-" ++ toString taskNumber ++ "-" ++ toString r

/-- The elements of a path between its separators `/`. -/
def splitSlash : List Char → List (List Char)
  | [] => [[]]
  | c :: rest =>
    if c = '/' then [] :: splitSlash rest
    else
      match splitSlash rest with
      | [] => [[c]]
      | x :: xs => (c :: x) :: xs

/-- One step of `filepath.Clean`: `out` holds the elements kept so far, the
last one first.  An empty element and `.` are dropped; `..` removes the last
kept element that is not `..`, is dropped at the root, and is kept
otherwise. -/
def cleanStep (rooted : Bool) (out : List (List Char)) (elem : List Char) :
    List (List Char) :=
  if elem = [] ∨ elem = ['.'] then out
  else if elem = ['.', '.'] then
    match out with
    | [] => if rooted then [] else [elem]
    | top :: below => if top = ['.', '.'] then elem :: out else below
  else elem :: out

/-- The function `filepath.Clean` (Unix). -/
def cleanPath (path : String) : String :=
  let rooted := decide (path.data.head? = some '/')
  let out := (splitSlash path.data).foldl (cleanStep rooted) []
  let body := String.intercalate "/" (out.reverse.map String.mk)
  if rooted then "/" ++ body
  else if body = "" then "."
  else body

/-- The function `filepath.Join` for two elements (Unix): the elements from
the first non-empty one on are joined by `/` and the result is cleaned. -/
def joinPath (dir name : String) : String :=
  if dir ≠ "" then cleanPath (dir ++ "/" ++ name)
  else if name ≠ "" then cleanPath name
  else ""

/-- The function `mapper`, given the pairs `kva` returned by the map function
and the working directory returned by `os.Getwd`: the result is the list of
the files it published (name and content, one per reduce partition) and the
task it passes to `TaskCompleted`. -/
def mapper (task : Task) (kva : List KeyValueBytes) (dir : String) :
    Except Fault (List (String × List KeyValueBytes) × Task) :=
  let n := task.NReducer.toNat
  match encodeAll task.NReducer kva (List.replicate n []) with
  | .error e => .error e
  | .ok tmpFiles =>
    let published := (List.range n).map (fun r =>
      (outputName task.TaskNumber r, (tmpFiles.get? r).getD []))
    let mapOutput := (List.range n).map (fun r =>
      joinPath dir (outputName task.TaskNumber r))
    .ok (published, { task with Intermediates := mapOutput })

/-- The two inner loops of `reducer` started at a pair with key `key`: the
values of the following pairs with the same key, and the pairs from the first
one with another key on. -/
def takeRun (key : String) : List KeyValue → List String × List KeyValue
  | [] => ([], [])
  | kv :: rest =>
    if kv.Key = key then
      (kv.Value :: (takeRun key rest).1, (takeRun key rest).2)
    else
      ([], kv :: rest)

/-- The outer loop `for i < len(intermediate)` of `reducer` on the pairs from
position `i` on: the key and the output of the reduce function for each run
of equal keys.  The first argument bounds the number of rounds; every round
consumes a pair, so the number of pairs is enough. -/
def reduceLoop (reducef : String → List String → String) :
    Nat → List KeyValue → List (String × String)
  | 0, _ => []
  | _ + 1, [] => []
  | fuel + 1, kv :: rest =>
    (kv.Key, reducef kv.Key (kv.Value :: (takeRun kv.Key rest).1))
      :: reduceLoop reducef fuel (takeRun kv.Key rest).2

/-- The line `fmt.Fprintf(tempFile, "%v %v\n", key, output)`. -/
def outputLine (l : String × String) : String :=
  l.1 ++ " " ++ l.2 ++ "\n"

/-- The function `reducer`, given the pairs read from the intermediate files
as `sort.Sort(ByKey(intermediate))` left them: the name and the content of the
output file it publishes. -/
def reducer (task : Task) (sorted : List KeyValue)
    (reducef : String → List String → String) : String × String :=
  ("mr-out-" ++ toString task.TaskNumber,
   String.join ((reduceLoop reducef sorted.length sorted).map outputLine))

/-- The reduce function of a word count: the number of values. -/
def countValues (_key : String) (values : List String) : String :=
  toString values.length

/-- The pairs of scenario B of the specification. -/
def scenarioB : List KeyValue :=
  [{ Key := "a", Value := "1" }, { Key := "a", Value := "1" }, { Key := "b", Value := "1" }]

/-! # Theorems -/

/-! ## The ledger: reads after writes -/

theorem lookup_store_self (k : Int) (v : MasterTask) (l : List (Int × MasterTask)) :
    lookup k (store k v l) = some v := by
  induction l with
  | nil => simp [store, lookup]
  | cons x rest ih =>
    obtain ⟨k1, v1⟩ := x
    by_cases hk : k1 = k
    · simp [store, lookup, hk]
    · simp [store, lookup, hk, ih]

theorem lookup_store_ne (k k2 : Int) (v : MasterTask) (l : List (Int × MasterTask))
    (hne : k2 ≠ k) : lookup k2 (store k v l) = lookup k2 l := by
  induction l with
  | nil => simp [store, lookup, Ne.symm hne]
  | cons x rest ih =>
    obtain ⟨k1, v1⟩ := x
    by_cases hk : k1 = k
    · subst hk
      simp [store, lookup, Ne.symm hne]
    · by_cases hk2 : k1 = k2
      · subst hk2
        simp [store, lookup, hk]
      · simp [store, lookup, hk, hk2, ih]

theorem keys_store_of_lookup (k : Int) (v e : MasterTask) (l : List (Int × MasterTask))
    (h : lookup k l = some e) : keys (store k v l) = keys l := by
  induction l with
  | nil => simp [lookup] at h
  | cons x rest ih =>
    obtain ⟨k1, v1⟩ := x
    by_cases hk : k1 = k
    · simp [store, keys, hk]
    · simp only [lookup, hk, if_false] at h
      have := ih h
      simp only [keys] at this
      simp [store, keys, hk, this]

/-! ## `TaskCompleted` -/

/-- C1: a report whose `TaskState` is not the current phase (whatever its
`TaskNumber`, with or without a ledger entry), or whose ledger entry is already
`Completed`, makes `TaskCompleted` return nil without spawning
`processTaskResult` and without changing any part of the coordinator state. -/
theorem TaskCompleted_stale_noop (m : Master) (t : Task)
    (h : t.TaskState ≠ m.MasterPhase ∨
      ∃ e, lookup t.TaskNumber m.TaskMeta = some e ∧
        e.TaskStatus = MasterTaskStatus.Completed) :
    TaskCompleted m t = .ok (m, none) := by
  unfold TaskCompleted
  by_cases hp : t.TaskState = m.MasterPhase
  · rcases h with h | ⟨e, he, hc⟩
    · exact absurd hp h
    · simp [hp, he, hc]
  · simp [hp]

/-- Instances of C1: a late Map report for a task number without ledger entry
during the Reduce phase, and a report for an entry that is `Completed`. -/
theorem TaskCompleted_stale_noop_witness :
    TaskCompleted sampleReduce (mapTask "b" 1 7) = .ok (sampleReduce, none) ∧
    TaskCompleted { sampleReduce with MasterPhase := State.Exit } (Task.ofState State.Map)
      = .ok ({ sampleReduce with MasterPhase := State.Exit }, none) :=
  ⟨TaskCompleted_stale_noop sampleReduce (mapTask "b" 1 7) (Or.inl (by decide)),
   TaskCompleted_stale_noop _ (Task.ofState State.Map) (Or.inl (by decide))⟩

/-- C2: when a report `t` for the current phase meets a ledger entry that is
not `Completed`, `TaskCompleted` accepts it (marks the entry and spawns
`processTaskResult t`); a second `TaskCompleted t` issued right after, or
issued after the spawned `processTaskResult t` has run, returns nil, spawns
nothing and leaves the state as it was after the first report. -/
theorem TaskCompleted_twice (m : Master) (t : Task) (e : MasterTask)
    (hphase : t.TaskState = m.MasterPhase)
    (hentry : lookup t.TaskNumber m.TaskMeta = some e)
    (hopen : e.TaskStatus ≠ MasterTaskStatus.Completed) :
    ∃ m1, TaskCompleted m t = .ok (m1, some t) ∧
      TaskCompleted m1 t = .ok (m1, none) ∧
      ∀ m2, processTaskResult m1 t = .ok m2 → TaskCompleted m2 t = .ok (m2, none) := by
  let e1 : MasterTask := { e with TaskStatus := MasterTaskStatus.Completed }
  refine ⟨{ m with TaskMeta := store t.TaskNumber e1 m.TaskMeta }, ?_, ?_, ?_⟩
  · simp [TaskCompleted, hphase, hentry, hopen]
  · simp [TaskCompleted, hphase, lookup_store_self]
  · intro m2 h2
    unfold processTaskResult at h2
    cases hst : t.TaskState with
    | Map =>
      rw [hst] at h2
      simp only at h2
      cases hc : collect 0 t.Intermediates m.Intermediates with
      | error x => simp [hc] at h2
      | ok slots =>
        simp only [hc] at h2
        split at h2
        · split at h2
          · simp at h2
          · simp only [Except.ok.injEq] at h2
            subst h2
            simp [TaskCompleted, hst]
        · simp only [Except.ok.injEq] at h2
          subst h2
          simp [TaskCompleted, hphase, lookup_store_self]
    | Reduce =>
      rw [hst] at h2
      simp only at h2
      split at h2
      · simp only [Except.ok.injEq] at h2
        subst h2
        simp [TaskCompleted, hst]
      · simp only [Except.ok.injEq] at h2
        subst h2
        simp [TaskCompleted, hphase, lookup_store_self]
    | Exit =>
      rw [hst] at h2
      simp only [Except.ok.injEq] at h2
      subst h2
      simp [TaskCompleted, hphase, lookup_store_self]
    | Wait =>
      rw [hst] at h2
      simp only [Except.ok.injEq] at h2
      subst h2
      simp [TaskCompleted, hphase, lookup_store_self]

/-- Instance of C2: the report of the Reduce task of `sampleReduce`. -/
theorem TaskCompleted_twice_witness :
    ∃ m1, TaskCompleted sampleReduce (reduceTask 1 0 ["/w/mr-0-0"])
        = .ok (m1, some (reduceTask 1 0 ["/w/mr-0-0"])) ∧
      TaskCompleted m1 (reduceTask 1 0 ["/w/mr-0-0"]) = .ok (m1, none) ∧
      ∀ m2, processTaskResult m1 (reduceTask 1 0 ["/w/mr-0-0"]) = .ok m2 →
        TaskCompleted m2 (reduceTask 1 0 ["/w/mr-0-0"]) = .ok (m2, none) :=
  TaskCompleted_twice sampleReduce (reduceTask 1 0 ["/w/mr-0-0"])
    { TaskStatus := MasterTaskStatus.InProgress, StartTime := 0,
      TaskReference := reduceTask 1 0 ["/w/mr-0-0"] }
    (by decide) (by decide) (by decide)

/-! ## `AssignTask` -/

/-- C8: with a non-empty queue whose head task has a ledger entry, `AssignTask`
replies with the head task, leaves the rest of the queue in order, sets the
entry keyed by the head's `TaskNumber` to `InProgress` with `StartTime = now`
(its task reference kept), and changes no other ledger entry, nor the set of
keys, the phase, the index of intermediate files or any other field. -/
theorem AssignTask_pop (m : Master) (now : Int) (head : Task) (rest : List Task)
    (e : MasterTask) (hq : m.TaskQueue = head :: rest)
    (hentry : lookup head.TaskNumber m.TaskMeta = some e) :
    ∃ m1, AssignTask m now = .ok (m1, head) ∧
      m1.TaskQueue = rest ∧
      lookup head.TaskNumber m1.TaskMeta =
        some { TaskStatus := MasterTaskStatus.InProgress, StartTime := now,
               TaskReference := e.TaskReference } ∧
      (∀ k, k ≠ head.TaskNumber → lookup k m1.TaskMeta = lookup k m.TaskMeta) ∧
      keys m1.TaskMeta = keys m.TaskMeta ∧
      m1.MasterPhase = m.MasterPhase ∧
      m1.Intermediates = m.Intermediates ∧
      m1.QueueCap = m.QueueCap ∧ m1.NReduce = m.NReduce ∧ m1.InputFiles = m.InputFiles := by
  let e1 : MasterTask := { e with TaskStatus := MasterTaskStatus.InProgress, StartTime := now }
  refine ⟨{ m with TaskQueue := rest, TaskMeta := store head.TaskNumber e1 m.TaskMeta },
    ?_, rfl, ?_, ?_, ?_, rfl, rfl, rfl, rfl, rfl⟩
  · simp [AssignTask, hq, hentry, e1]
  · exact lookup_store_self _ _ _
  · intro k hk
    exact lookup_store_ne _ _ _ _ hk
  · exact keys_store_of_lookup _ _ _ _ hentry

/-- Instance of C8: the queued task of file `b` in `sampleMap`, at instant
`7`. -/
theorem AssignTask_pop_witness :
    ∃ m1, AssignTask sampleMap 7 = .ok (m1, mapTask "b" 1 1) ∧
      m1.TaskQueue = [] ∧
      lookup (mapTask "b" 1 1).TaskNumber m1.TaskMeta =
        some { TaskStatus := MasterTaskStatus.InProgress, StartTime := 7,
               TaskReference := mapTask "b" 1 1 } ∧
      (∀ k, k ≠ (mapTask "b" 1 1).TaskNumber →
        lookup k m1.TaskMeta = lookup k sampleMap.TaskMeta) ∧
      keys m1.TaskMeta = keys sampleMap.TaskMeta ∧
      m1.MasterPhase = sampleMap.MasterPhase ∧
      m1.Intermediates = sampleMap.Intermediates ∧
      m1.QueueCap = sampleMap.QueueCap ∧ m1.NReduce = sampleMap.NReduce ∧
      m1.InputFiles = sampleMap.InputFiles :=
  AssignTask_pop sampleMap 7 (mapTask "b" 1 1) []
    { TaskStatus := MasterTaskStatus.Idle, StartTime := zeroTime,
      TaskReference := mapTask "b" 1 1 }
    (by decide) (by decide)

/-- C9: with an empty queue `AssignTask` returns nil, leaves the whole state
unchanged and replies `Task{TaskState: Exit}` when the phase is `Exit` and
`Task{TaskState: Wait}` otherwise, every other field of the reply being the
zero value. -/
theorem AssignTask_empty (m : Master) (now : Int) (hq : m.TaskQueue = []) :
    AssignTask m now = .ok (m,
      { Input := "",
        TaskState := if m.MasterPhase = State.Exit then State.Exit else State.Wait,
        NReducer := 0, TaskNumber := 0, Intermediates := [], Output := "" }) := by
  unfold AssignTask
  rw [hq]
  by_cases hp : m.MasterPhase = State.Exit
  · simp [hp, Task.ofState]
  · simp [hp, Task.ofState]

/-- Instances of C9: the Reduce phase and the Exit phase with an empty
queue. -/
theorem AssignTask_empty_witness :
    AssignTask sampleReduce 7 = .ok (sampleReduce,
      { Input := "", TaskState := State.Wait, NReducer := 0, TaskNumber := 0,
        Intermediates := [], Output := "" }) ∧
    AssignTask { sampleReduce with MasterPhase := State.Exit } 7
      = .ok ({ sampleReduce with MasterPhase := State.Exit },
          { Input := "", TaskState := State.Exit, NReducer := 0, TaskNumber := 0,
            Intermediates := [], Output := "" }) :=
  ⟨AssignTask_empty sampleReduce 7 (by decide),
   AssignTask_empty { sampleReduce with MasterPhase := State.Exit } 7 (by decide)⟩

/-! ## Executions -/

theorem HonestReachable.reachable {files : List String} {nReduce : Int} {s : Sys}
    (h : HonestReachable files nReduce s) : Reachable files nReduce s := by
  induction h with
  | start m t0 h => exact Reachable.start m t0 h
  | next s e s1 _ he _ h ih => exact Reachable.next s e s1 ih he h

theorem exec_honestReachable {files : List String} {nReduce : Int} (es : List Event) :
    ∀ (s s1 : Sys), HonestReachable files nReduce s → exec s es = some s1 →
      HonestReachable files nReduce s1 := by
  induction es with
  | nil =>
    intro s s1 hs h
    simp only [exec, Option.some.injEq] at h
    exact h ▸ hs
  | cons e es ih =>
    intro s s1 hs h
    simp only [exec] at h
    split at h
    · rename_i hen
      simp only [Bool.and_eq_true] at hen
      split at h
      · simp at h
      · rename_i s2 hstep
        exact ih s2 s1 (HonestReachable.next s e s2 hs hen.1 hen.2 hstep) h
    · simp at h

theorem execFrom_honestReachable {files : List String} {nReduce : Int} {es : List Event}
    {s : Sys} (h : execFrom files nReduce es = some s) : HonestReachable files nReduce s := by
  unfold execFrom at h
  split at h
  · simp at h
  · rename_i m hm
    exact exec_honestReachable es _ s (HonestReachable.start m 0 hm) h

/-! ## Defects of the task lifecycle -/

/-- C3 fails on the code: with files `a`, `b` and one reduce partition, the
execution `traceDuplicate` (all reports come from workers that were handed the
task) ends in the Map phase with two reports of Map task 0 processed and the
location `/w/mr-0-0` twice in slot 0 of the index. -/
theorem duplicate_fold_of_requeued_task :
    ∃ s, HonestReachable ["a", "b"] 1 s ∧ s.m.MasterPhase = State.Map ∧
      foldedReports s.log 0 = [reportA, reportA] ∧
      s.m.Intermediates = [["/w/mr-0-0", "/w/mr-0-0"]] := by
  have h : (execFrom ["a", "b"] 1 traceDuplicate).map
      (fun s => (s.m.MasterPhase, foldedReports s.log 0, s.m.Intermediates))
      = some (State.Map, [reportA, reportA], [["/w/mr-0-0", "/w/mr-0-0"]]) := by
    decide
  obtain ⟨s, hs, hv⟩ := Option.map_eq_some'.mp h
  simp only [Prod.mk.injEq] at hv
  exact ⟨s, execFrom_honestReachable hs, hv.1, hv.2.1, hv.2.2⟩

/-- C4 fails on the code: with files `a`, `b` and one reduce partition, the
execution `traceEarlyBuild` reaches a state whose last step built the Reduce
task although the accepted report of Map task 0 is still pending: Reduce task
0 lists `/w/mr-1-0` only, and processing the pending report afterwards adds
`/w/mr-0-0` to the index. -/
theorem reduce_built_before_fold :
    ∃ s s1, HonestReachable ["a", "b"] 1 s ∧
      s.log.getLast? = some Obs.built ∧
      s.m.MasterPhase = State.Reduce ∧
      s.pending = [reportA] ∧
      s.m.TaskQueue = [reduceTask 1 0 ["/w/mr-1-0"]] ∧
      (lookup 0 s.m.TaskMeta).map (fun e => e.TaskReference)
        = some (reduceTask 1 0 ["/w/mr-1-0"]) ∧
      s.m.Intermediates = [["/w/mr-1-0"]] ∧
      enabled s (Event.process 0) = true ∧
      step s (Event.process 0) = .ok s1 ∧
      s1.m.Intermediates = [["/w/mr-1-0", "/w/mr-0-0"]] := by
  have h : (execFrom ["a", "b"] 1 traceEarlyBuild).map
      (fun s => (s.log.getLast?, s.m.MasterPhase, s.pending, s.m.TaskQueue,
        (lookup 0 s.m.TaskMeta).map (fun e => e.TaskReference), s.m.Intermediates,
        enabled s (Event.process 0),
        (step s (Event.process 0)).toOption.map (fun s1 => s1.m.Intermediates)))
      = some (some Obs.built, State.Reduce, [reportA], [reduceTask 1 0 ["/w/mr-1-0"]],
        some (reduceTask 1 0 ["/w/mr-1-0"]), [["/w/mr-1-0"]], true,
        some [["/w/mr-1-0", "/w/mr-0-0"]]) := by
    rfl
  obtain ⟨s, hs, hv⟩ := Option.map_eq_some'.mp h
  simp only [Prod.mk.injEq] at hv
  obtain ⟨h1, h2, h3, h4, h5, h6, h7, h8⟩ := hv
  obtain ⟨s1, hs1, hv1⟩ := Option.map_eq_some'.mp h8
  cases hst : step s (Event.process 0) with
  | error x => simp [hst, Except.toOption] at hs1
  | ok s2 =>
    simp only [hst, Except.toOption, Option.some.injEq] at hs1
    subst hs1
    exact ⟨s, s2, execFrom_honestReachable hs, h1, h2, h3, h4, h5, h6, h7, hst, hv1⟩

/-- C6 fails on the code: with files `a`, `b` and one reduce partition, the
execution `traceStale` reaches a state whose queue holds the Reduce task 0
while the ledger entry 0 is `InProgress` (marked by the `AssignTask` that
handed out the stale Map task 0); the scan 35 s later sends Reduce task 0 to
the queue a second time, and the next two `AssignTask` calls both reply with
Reduce task 0, no scan occurring between them. -/
theorem same_task_assigned_twice :
    ∃ s1 s2 s3, HonestReachable ["a", "b"] 1 s1 ∧
      s1.m.TaskQueue = [reduceAB] ∧
      statusAt s1.m reduceAB.TaskNumber = some MasterTaskStatus.InProgress ∧
      exec s1 [Event.tick sec35, Event.scan [0]] = some s2 ∧
      s2.m.TaskQueue = [reduceAB, reduceAB] ∧
      exec s2 [Event.assign, Event.assign] = some s3 ∧
      s3.log = s2.log ++ [Obs.assigned reduceAB, Obs.assigned reduceAB] := by
  have h : (execFrom ["a", "b"] 1 traceStale).bind (fun s1 =>
      (exec s1 [Event.tick sec35, Event.scan [0]]).bind (fun s2 =>
        (exec s2 [Event.assign, Event.assign]).map (fun s3 =>
          (s1.m.TaskQueue, statusAt s1.m reduceAB.TaskNumber, s2.m.TaskQueue,
            decide (s3.log = s2.log ++ [Obs.assigned reduceAB, Obs.assigned reduceAB])))))
      = some ([reduceAB], some MasterTaskStatus.InProgress, [reduceAB, reduceAB], true) := by
    rfl
  obtain ⟨s1, hs1, h⟩ := Option.bind_eq_some.mp h
  obtain ⟨s2, hs2, h⟩ := Option.bind_eq_some.mp h
  obtain ⟨s3, hs3, hv⟩ := Option.map_eq_some'.mp h
  simp only [Prod.mk.injEq, decide_eq_true_eq] at hv
  exact ⟨s1, s2, s3, execFrom_honestReachable hs1, hv.1, hv.2.1, hs2, hv.2.2.1, hs3, hv.2.2.2⟩

/-- C10 fails on the code: with file `a` and one reduce partition, the
execution `traceExit` ends with `MasterPhase = Exit` (`Done` returns true) and
the Reduce task still in the queue, so `AssignTask` replies with that Reduce
task instead of `Task{TaskState: Exit}`. -/
theorem assign_after_exit_returns_reduce_task :
    ∃ s m1, HonestReachable ["a"] 1 s ∧ s.m.MasterPhase = State.Exit ∧ Done s.m = true ∧
      AssignTask s.m s.now = .ok (m1, reduceTask 1 0 ["/w/mr-0-0"]) := by
  have h : (execFrom ["a"] 1 traceExit).map
      (fun s => (s.m.MasterPhase, Done s.m,
        (AssignTask s.m s.now).toOption.map (fun r => r.2)))
      = some (State.Exit, true, some (reduceTask 1 0 ["/w/mr-0-0"])) := by
    rfl
  obtain ⟨s, hs, hv⟩ := Option.map_eq_some'.mp h
  simp only [Prod.mk.injEq] at hv
  obtain ⟨h1, h2, h3⟩ := hv
  obtain ⟨r, hr, hv1⟩ := Option.map_eq_some'.mp h3
  cases hst : AssignTask s.m s.now with
  | error x => simp [hst, Except.toOption] at hr
  | ok r1 =>
    simp only [hst, Except.toOption, Option.some.injEq] at hr
    subst hr
    obtain ⟨m1, t1⟩ := r1
    simp only at hv1
    subst hv1
    exact ⟨s, m1, execFrom_honestReachable hs, h1, h2, hst⟩

/-- C7 fails on the code as stated: with file `a` and one reduce partition,
after `traceRequeued` the ledger entry 0 is `Idle` (the scan reset it), and
the report of the slow worker changes it from `Idle` directly to `Completed`
within the Map phase. -/
theorem idle_entry_becomes_completed :
    ∃ s s1, HonestReachable ["a"] 1 s ∧
      enabled s (Event.report 0 ["/w/mr-0-0"]) = true ∧
      step s (Event.report 0 ["/w/mr-0-0"]) = .ok s1 ∧
      s.m.MasterPhase = State.Map ∧ s1.m.MasterPhase = State.Map ∧
      statusAt s.m 0 = some MasterTaskStatus.Idle ∧
      statusAt s1.m 0 = some MasterTaskStatus.Completed := by
  have h : (execFrom ["a"] 1 traceRequeued).map
      (fun s => (enabled s (Event.report 0 ["/w/mr-0-0"]), s.m.MasterPhase, statusAt s.m 0,
        (step s (Event.report 0 ["/w/mr-0-0"])).toOption.map
          (fun s1 => (s1.m.MasterPhase, statusAt s1.m 0))))
      = some (true, State.Map, some MasterTaskStatus.Idle,
          some (State.Map, some MasterTaskStatus.Completed)) := by
    rfl
  obtain ⟨s, hs, hv⟩ := Option.map_eq_some'.mp h
  simp only [Prod.mk.injEq] at hv
  obtain ⟨h1, h2, h3, h4⟩ := hv
  obtain ⟨s1, hs1, hv1⟩ := Option.map_eq_some'.mp h4
  simp only [Prod.mk.injEq] at hv1
  cases hst : step s (Event.report 0 ["/w/mr-0-0"]) with
  | error x => simp [hst, Except.toOption] at hs1
  | ok s2 =>
    simp only [hst, Except.toOption, Option.some.injEq] at hs1
    subst hs1
    exact ⟨s, s2, execFrom_honestReachable hs, h1, hst, h2, hv1.1, h3, hv1.2⟩

/-! ## Status changes of ledger entries -/

theorem send_ok {m m1 : Master} {t : Task} (h : send m t = .ok m1) :
    m1 = { m with TaskQueue := m.TaskQueue ++ [t] } ∧ m.TaskQueue.length < m.QueueCap := by
  unfold send at h
  split at h
  · rename_i hlt
    simp only [Except.ok.injEq] at h
    exact ⟨h.symm, hlt⟩
  · simp at h

theorem statusAt_store (m : Master) (k j : Int) (v : MasterTask) (q : List Task) :
    statusAt { m with TaskQueue := q, TaskMeta := store k v m.TaskMeta } j
      = if j = k then some v.TaskStatus else statusAt m j := by
  unfold statusAt
  by_cases hj : j = k
  · subst hj
    simp [lookup_store_self]
  · simp [hj, lookup_store_ne _ _ _ _ hj]

theorem scanEntry_status {now : Int} {m m1 : Master} {k : Int}
    (h : scanEntry now m k = .ok m1) (j : Int) :
    statusAt m1 j = statusAt m j ∨
      (statusAt m j = some MasterTaskStatus.InProgress ∧
        statusAt m1 j = some MasterTaskStatus.Idle) := by
  unfold scanEntry at h
  split at h
  · simp only [Except.ok.injEq] at h
    subst h
    exact Or.inl rfl
  · rename_i mt hl
    split at h
    · rename_i hc
      split at h
      · simp at h
      · rename_i m0 hsend
        simp only [Except.ok.injEq] at h
        obtain ⟨hm0, -⟩ := send_ok hsend
        subst hm0
        subst h
        by_cases hj : j = k
        · subst hj
          right
          constructor
          · simp [statusAt, hl, hc.1]
          · simp [statusAt, lookup_store_self]
        · left
          simp [statusAt, lookup_store_ne _ _ _ _ hj]
    · simp only [Except.ok.injEq] at h
      subst h
      exact Or.inl rfl

theorem scanLoop_status {now : Int} (order : List Int) :
    ∀ {m m1 : Master}, scanLoop now order m = .ok m1 → ∀ j : Int,
      statusAt m1 j = statusAt m j ∨
        (statusAt m j = some MasterTaskStatus.InProgress ∧
          statusAt m1 j = some MasterTaskStatus.Idle) := by
  induction order with
  | nil =>
    intro m m1 h j
    simp only [scanLoop, Except.ok.injEq] at h
    subst h
    exact Or.inl rfl
  | cons k ks ih =>
    intro m m1 h j
    simp only [scanLoop] at h
    split at h
    · simp at h
    · rename_i m0 h0
      rcases scanEntry_status h0 j with h1 | ⟨h1, h2⟩
      · rw [← h1]
        exact ih h j
      · rcases ih h j with h3 | ⟨h3, _⟩
        · exact Or.inr ⟨h1, by rw [h3, h2]⟩
        · rw [h2] at h3
          simp at h3

theorem processTaskResult_TaskMeta {m m1 : Master} {t : Task}
    (h : processTaskResult m t = .ok m1) (hb : buildsReduce m t = false) :
    m1.TaskMeta = m.TaskMeta := by
  unfold processTaskResult at h
  unfold buildsReduce at hb
  cases hst : t.TaskState with
  | Map =>
    rw [hst] at h hb
    simp only at h hb
    split at h
    · simp at h
    · rename_i slots hc
      simp only [hc] at hb
      simp only [hb] at h
      simp only [Bool.false_eq_true, if_false, Except.ok.injEq] at h
      subst h
      rfl
  | Reduce =>
    rw [hst] at h
    simp only at h
    split at h
    · simp only [Except.ok.injEq] at h
      subst h
      rfl
    · simp only [Except.ok.injEq] at h
      subst h
      rfl
  | Exit =>
    rw [hst] at h
    simp only [Except.ok.injEq] at h
    subst h
    rfl
  | Wait =>
    rw [hst] at h
    simp only [Except.ok.injEq] at h
    subst h
    rfl

theorem TaskCompleted_status {m m1 : Master} {t : Task} {sp : Option Task}
    (h : TaskCompleted m t = .ok (m1, sp)) (k : Int) (a b : MasterTaskStatus)
    (ha : statusAt m k = some a) (hb : statusAt m1 k = some b) (hab : a ≠ b) :
    a ≠ MasterTaskStatus.Completed ∧ b = MasterTaskStatus.Completed := by
  unfold TaskCompleted at h
  split at h
  · simp only [Except.ok.injEq, Prod.mk.injEq] at h
    obtain ⟨h1, -⟩ := h
    subst h1
    rw [ha] at hb
    exact absurd (Option.some.inj hb) hab
  · split at h
    · simp at h
    · rename_i e hl
      split at h
      · simp only [Except.ok.injEq, Prod.mk.injEq] at h
        obtain ⟨h1, -⟩ := h
        subst h1
        rw [ha] at hb
        exact absurd (Option.some.inj hb) hab
      · rename_i hne
        simp only [Except.ok.injEq, Prod.mk.injEq] at h
        obtain ⟨h1, -⟩ := h
        subst h1
        by_cases hk : k = t.TaskNumber
        · subst hk
          simp only [statusAt, lookup_store_self, Option.map_some', Option.some.injEq] at hb
          simp only [statusAt, hl, Option.map_some', Option.some.injEq] at ha
          exact ⟨ha ▸ hne, hb.symm⟩
        · simp only [statusAt, lookup_store_ne _ _ _ _ hk] at hb
          simp only [statusAt] at ha
          rw [ha] at hb
          exact absurd (Option.some.inj hb) hab

theorem completed_status {s s1 : Sys} {hd : List Task} {t : Task}
    (h : s.completed hd t = .ok s1) (k : Int) (a b : MasterTaskStatus)
    (ha : statusAt s.m k = some a) (hb : statusAt s1.m k = some b) (hab : a ≠ b) :
    a ≠ MasterTaskStatus.Completed ∧ b = MasterTaskStatus.Completed := by
  unfold Sys.completed at h
  split at h
  · simp at h
  · rename_i m1 htc
    simp only [Except.ok.injEq] at h
    subst h
    exact TaskCompleted_status htc k a b ha hb hab
  · rename_i m1 t1 htc
    simp only [Except.ok.injEq] at h
    subst h
    exact TaskCompleted_status htc k a b ha hb hab

theorem AssignTask_status {m m1 : Master} {now : Int} {r : Task}
    (h : AssignTask m now = .ok (m1, r)) (k : Int) (a b : MasterTaskStatus)
    (ha : statusAt m k = some a) (hb : statusAt m1 k = some b) (hab : a ≠ b) :
    b = MasterTaskStatus.InProgress ∧
      m.TaskQueue.head?.map (fun t => t.TaskNumber) = some k := by
  unfold AssignTask at h
  split at h
  · rename_i head rest hq
    split at h
    · simp at h
    · rename_i e hl
      simp only [Except.ok.injEq, Prod.mk.injEq] at h
      obtain ⟨h1, -⟩ := h
      subst h1
      rw [statusAt_store] at hb
      by_cases hk : k = head.TaskNumber
      · simp only [hk, if_true, Option.some.injEq] at hb
        exact ⟨hb.symm, by simp [hq, hk]⟩
      · simp only [hk, if_false] at hb
        rw [ha] at hb
        exact absurd (Option.some.inj hb) hab
  · split at h
    · simp only [Except.ok.injEq, Prod.mk.injEq] at h
      obtain ⟨h1, -⟩ := h
      subst h1
      rw [ha] at hb
      exact absurd (Option.some.inj hb) hab
    · simp only [Except.ok.injEq, Prod.mk.injEq] at h
      obtain ⟨h1, -⟩ := h
      subst h1
      rw [ha] at hb
      exact absurd (Option.some.inj hb) hab

/-- C7 (amended): a step that changes the status of the ledger entry keyed by
`k` is an `AssignTask` that pops a task numbered `k` and sets the entry to
`InProgress`, or a timeout scan that changes it from `InProgress` to `Idle`,
or a `TaskCompleted` that changes it from `Idle` or `InProgress` to
`Completed`, or a `processTaskResult` that calls `createReduceTask` and so
replaces the ledger.  In particular `TaskCompleted`, the timeout scan and a
`processTaskResult` that keeps the ledger never change an entry that is
`Completed`. -/
theorem status_change_kinds (s : Sys) (e : Event) (s1 : Sys) (k : Int)
    (a b : MasterTaskStatus) (h : step s e = .ok s1)
    (ha : statusAt s.m k = some a) (hb : statusAt s1.m k = some b) (hab : a ≠ b) :
    (e = Event.assign ∧ b = MasterTaskStatus.InProgress ∧
        s.m.TaskQueue.head?.map (fun t => t.TaskNumber) = some k) ∨
    ((∃ order, e = Event.scan order) ∧
        a = MasterTaskStatus.InProgress ∧ b = MasterTaskStatus.Idle) ∨
    (((∃ i locs, e = Event.report i locs) ∨ ∃ t, e = Event.call t) ∧
        (a = MasterTaskStatus.Idle ∨ a = MasterTaskStatus.InProgress) ∧
        b = MasterTaskStatus.Completed) ∨
    (∃ i t, e = Event.process i ∧ s.pending.get? i = some t ∧
        buildsReduce s.m t = true) := by
  have same : s1.m = s.m → False := by
    intro hm
    rw [hm, ha] at hb
    exact hab (Option.some.inj hb)
  have notCompleted : ∀ x : MasterTaskStatus, x ≠ MasterTaskStatus.Completed →
      x = MasterTaskStatus.Idle ∨ x = MasterTaskStatus.InProgress := by
    intro x hx
    cases x
    · exact Or.inl rfl
    · exact Or.inr rfl
    · exact absurd rfl hx
  cases e with
  | tick d =>
    simp only [step, Except.ok.injEq] at h
    subst h
    exact (same rfl).elim
  | assign =>
    left
    simp only [step] at h
    split at h
    · simp at h
    · rename_i m1 reply hat
      have hm : s1.m = m1 := by
        split at h
        · simp only [Except.ok.injEq] at h
          subst h
          rfl
        · simp only [Except.ok.injEq] at h
          subst h
          rfl
      rw [hm] at hb
      exact ⟨rfl, AssignTask_status hat k a b ha hb hab⟩
  | report i locs =>
    right; right; left
    simp only [step] at h
    split at h
    · simp only [Except.ok.injEq] at h
      subst h
      exact (same rfl).elim
    · split at h
      · simp only [Except.ok.injEq] at h
        subst h
        exact (same rfl).elim
      · obtain ⟨h1, h2⟩ := completed_status h k a b ha hb hab
        exact ⟨Or.inl ⟨i, locs, rfl⟩, notCompleted a h1, h2⟩
  | call t =>
    right; right; left
    simp only [step] at h
    obtain ⟨h1, h2⟩ := completed_status h k a b ha hb hab
    exact ⟨Or.inr ⟨t, rfl⟩, notCompleted a h1, h2⟩
  | process i =>
    right; right; right
    simp only [step] at h
    split at h
    · simp only [Except.ok.injEq] at h
      subst h
      exact (same rfl).elim
    · rename_i t hget
      split at h
      · simp at h
      · rename_i m1 hp
        simp only [Except.ok.injEq] at h
        subst h
        refine ⟨i, t, rfl, hget, ?_⟩
        by_contra hbr
        simp only [Bool.not_eq_true] at hbr
        have hmeta := processTaskResult_TaskMeta hp hbr
        simp only [statusAt] at ha hb
        rw [hmeta, ha] at hb
        exact hab (Option.some.inj hb)
  | scan order =>
    right; left
    simp only [step] at h
    split at h
    · simp at h
    · rename_i m1 hct
      simp only [Except.ok.injEq] at h
      subst h
      unfold catchTimeOut at hct
      split at hct
      · simp at hct
      · split at hct
        · simp at hct
        · rename_i m2 hloop
          simp only [Except.ok.injEq, Prod.mk.injEq, and_true] at hct
          subst hct
          rcases scanLoop_status order hloop k with h1 | ⟨h1, h2⟩
          · simp only at hb
            rw [h1, ha] at hb
            exact absurd (Option.some.inj hb) hab
          · simp only at hb
            rw [ha] at h1
            rw [hb] at h2
            exact ⟨⟨order, rfl⟩, Option.some.inj h1, Option.some.inj h2⟩
    · rename_i m1 hct
      simp only [Except.ok.injEq] at h
      subst h
      unfold catchTimeOut at hct
      split at hct
      · simp only [Except.ok.injEq, Prod.mk.injEq, and_true] at hct
        exact (same hct.symm).elim
      · split at hct
        · simp at hct
        · simp at hct

/-- Instance of C7 (amended): `AssignTask` in `sampleMap` pops the task of file
`b` and changes entry 1 from `Idle` to `InProgress`. -/
theorem status_change_kinds_witness :
    (Event.assign = Event.assign ∧
        MasterTaskStatus.InProgress = MasterTaskStatus.InProgress ∧
        (Sys.start sampleMap 0).m.TaskQueue.head?.map (fun t => t.TaskNumber) = some 1) ∨
    ((∃ order, Event.assign = Event.scan order) ∧
        MasterTaskStatus.Idle = MasterTaskStatus.InProgress ∧
        MasterTaskStatus.InProgress = MasterTaskStatus.Idle) ∨
    (((∃ i locs, Event.assign = Event.report i locs) ∨ ∃ t, Event.assign = Event.call t) ∧
        (MasterTaskStatus.Idle = MasterTaskStatus.Idle ∨
          MasterTaskStatus.Idle = MasterTaskStatus.InProgress) ∧
        MasterTaskStatus.InProgress = MasterTaskStatus.Completed) ∨
    (∃ i t, Event.assign = Event.process i ∧ (Sys.start sampleMap 0).pending.get? i = some t ∧
        buildsReduce (Sys.start sampleMap 0).m t = true) :=
  status_change_kinds (Sys.start sampleMap 0) Event.assign sampleMapAssigned 1
    MasterTaskStatus.Idle MasterTaskStatus.InProgress (by rfl) (by rfl) (by rfl) (by decide)

/-! ## The shape of the ledger -/

theorem lookup_eq_none_of_not_mem_keys (k : Int) (l : List (Int × MasterTask))
    (h : k ∉ keys l) : lookup k l = none := by
  induction l with
  | nil => rfl
  | cons x rest ih =>
    obtain ⟨k1, v1⟩ := x
    simp only [keys, List.map_cons, List.mem_cons, not_or] at h
    have hk : ¬ k1 = k := fun hh => h.1 hh.symm
    simp only [lookup, hk, if_false]
    exact ih h.2

theorem store_fresh (k : Int) (v : MasterTask) (l : List (Int × MasterTask))
    (h : lookup k l = none) : store k v l = l ++ [(k, v)] := by
  induction l with
  | nil => rfl
  | cons x rest ih =>
    obtain ⟨k1, v1⟩ := x
    by_cases hk : k1 = k
    · simp [lookup, hk] at h
    · simp only [lookup, hk, if_false] at h
      simp [store, hk, ih h]

theorem keys_eq_of_shape (l : List (Int × MasterTask)) :
    keys l = (ledgerShape l).map Prod.fst := by
  simp [keys, ledgerShape, List.map_map, Function.comp_def]

theorem lookup_fresh_of_shape (ph : State) (n : Nat) (l : List (Int × MasterTask))
    (h : ledgerShape l = phaseShape ph n) : lookup (n : Int) l = none := by
  apply lookup_eq_none_of_not_mem_keys
  rw [keys_eq_of_shape, h]
  simp [phaseShape]

theorem phaseShape_succ (ph : State) (n : Nat) :
    phaseShape ph (n + 1) = phaseShape ph n ++ [((n : Int), ph, (n : Int))] := by
  simp [phaseShape, List.range_succ]

theorem ledgerShape_store_of_lookup (k : Int) (v e : MasterTask) (l : List (Int × MasterTask))
    (h : lookup k l = some e) (hv : v.TaskReference = e.TaskReference) :
    ledgerShape (store k v l) = ledgerShape l := by
  induction l with
  | nil => simp [lookup] at h
  | cons x rest ih =>
    obtain ⟨k1, v1⟩ := x
    by_cases hk : k1 = k
    · simp only [lookup, hk, if_true, Option.some.injEq] at h
      subst h
      simp [store, ledgerShape, hk, hv]
    · simp only [lookup, hk, if_false] at h
      have := ih h
      simp only [ledgerShape] at this
      simp [store, ledgerShape, hk, this]

theorem createMapTaskLoop_shape (files : List String) :
    ∀ (idx : Nat) (m m1 : Master), createMapTaskLoop idx files m = .ok m1 →
      ledgerShape m.TaskMeta = phaseShape State.Map idx →
      ledgerShape m1.TaskMeta = phaseShape State.Map (idx + files.length) ∧
        m1.Intermediates = m.Intermediates ∧ m1.MasterPhase = m.MasterPhase := by
  induction files with
  | nil =>
    intro idx m m1 h hsh
    simp only [createMapTaskLoop, Except.ok.injEq] at h
    subst h
    exact ⟨by simpa using hsh, rfl, rfl⟩
  | cons f rest ih =>
    intro idx m m1 h hsh
    simp only [createMapTaskLoop] at h
    split at h
    · simp at h
    · rename_i m0 hsend
      obtain ⟨hm0, -⟩ := send_ok hsend
      subst hm0
      have hfresh := lookup_fresh_of_shape State.Map idx m.TaskMeta hsh
      obtain ⟨h1, h2, h3⟩ := ih (idx + 1) _ m1 h (by
        simp only [store_fresh _ _ _ hfresh, phaseShape_succ]
        simp only [ledgerShape, List.map_append] at hsh ⊢
        rw [hsh]
        rfl)
      refine ⟨?_, h2, h3⟩
      rw [h1]
      simp only [List.length_cons]
      congr 1
      omega

theorem createReduceTaskLoop_shape (files : List (List String)) :
    ∀ (idx : Nat) (m m1 : Master), createReduceTaskLoop idx files m = .ok m1 →
      ledgerShape m.TaskMeta = phaseShape State.Reduce idx →
      ledgerShape m1.TaskMeta = phaseShape State.Reduce (idx + files.length) ∧
        m1.Intermediates = m.Intermediates ∧ m1.MasterPhase = m.MasterPhase := by
  induction files with
  | nil =>
    intro idx m m1 h hsh
    simp only [createReduceTaskLoop, Except.ok.injEq] at h
    subst h
    exact ⟨by simpa using hsh, rfl, rfl⟩
  | cons f rest ih =>
    intro idx m m1 h hsh
    simp only [createReduceTaskLoop] at h
    split at h
    · simp at h
    · rename_i m0 hsend
      obtain ⟨hm0, -⟩ := send_ok hsend
      subst hm0
      have hfresh := lookup_fresh_of_shape State.Reduce idx m.TaskMeta hsh
      obtain ⟨h1, h2, h3⟩ := ih (idx + 1) _ m1 h (by
        simp only [store_fresh _ _ _ hfresh, phaseShape_succ]
        simp only [ledgerShape, List.map_append] at hsh ⊢
        rw [hsh]
        rfl)
      refine ⟨?_, h2, h3⟩
      rw [h1]
      simp only [List.length_cons]
      congr 1
      omega

theorem createReduceTask_shape {m m1 : Master} (h : createReduceTask m = .ok m1) :
    ledgerShape m1.TaskMeta = phaseShape State.Reduce m.Intermediates.length ∧
      m1.Intermediates = m.Intermediates := by
  unfold createReduceTask at h
  obtain ⟨h1, h2, -⟩ := createReduceTaskLoop_shape m.Intermediates 0 _ m1 h rfl
  exact ⟨by simpa using h1, h2⟩

theorem MakeMaster_shape {files : List String} {nReduce : Int} {m : Master}
    (h : MakeMaster files nReduce = .ok m) :
    ledgerShape m.TaskMeta = phaseShape State.Map files.length ∧
      m.Intermediates.length = nReduce.toNat ∧ m.MasterPhase = State.Map := by
  unfold MakeMaster at h
  split at h
  · simp at h
  · split at h
    · simp at h
    · split at h
      · simp at h
      · unfold createMapTask at h
        obtain ⟨h1, h2, h3⟩ := createMapTaskLoop_shape files 0 _ m h rfl
        refine ⟨by simpa using h1, ?_, h3⟩
        rw [h2]
        simp

theorem collect_length (xs : List String) :
    ∀ (i : Nat) (slots slots1 : List (List String)), collect i xs slots = .ok slots1 →
      slots1.length = slots.length := by
  induction xs with
  | nil =>
    intro i slots slots1 h
    simp only [collect, Except.ok.injEq] at h
    rw [← h]
  | cons x rest ih =>
    intro i slots slots1 h
    simp only [collect] at h
    split at h
    · simp at h
    · rw [ih _ _ _ h]
      simp

/-! ## What each coordinator function preserves -/

theorem AssignTask_frame {m m1 : Master} {now : Int} {r : Task}
    (h : AssignTask m now = .ok (m1, r)) :
    ledgerShape m1.TaskMeta = ledgerShape m.TaskMeta ∧
      m1.MasterPhase = m.MasterPhase ∧ m1.Intermediates = m.Intermediates := by
  unfold AssignTask at h
  split at h
  · split at h
    · simp at h
    · rename_i e hl
      simp only [Except.ok.injEq, Prod.mk.injEq] at h
      obtain ⟨h1, -⟩ := h
      subst h1
      exact ⟨ledgerShape_store_of_lookup _ _ _ _ hl rfl, rfl, rfl⟩
  · split at h
    · simp only [Except.ok.injEq, Prod.mk.injEq] at h
      obtain ⟨h1, -⟩ := h
      subst h1
      exact ⟨rfl, rfl, rfl⟩
    · simp only [Except.ok.injEq, Prod.mk.injEq] at h
      obtain ⟨h1, -⟩ := h
      subst h1
      exact ⟨rfl, rfl, rfl⟩

theorem TaskCompleted_frame {m m1 : Master} {t : Task} {sp : Option Task}
    (h : TaskCompleted m t = .ok (m1, sp)) :
    ledgerShape m1.TaskMeta = ledgerShape m.TaskMeta ∧
      m1.MasterPhase = m.MasterPhase ∧ m1.Intermediates = m.Intermediates ∧
      ∀ t1, sp = some t1 → t1.TaskState = m.MasterPhase := by
  unfold TaskCompleted at h
  split at h
  · simp only [Except.ok.injEq, Prod.mk.injEq] at h
    obtain ⟨h1, h2⟩ := h
    subst h1 h2
    exact ⟨rfl, rfl, rfl, by simp⟩
  · rename_i hp
    simp only [ne_eq, not_not] at hp
    split at h
    · simp at h
    · rename_i e hl
      split at h
      · simp only [Except.ok.injEq, Prod.mk.injEq] at h
        obtain ⟨h1, h2⟩ := h
        subst h1 h2
        exact ⟨rfl, rfl, rfl, by simp⟩
      · simp only [Except.ok.injEq, Prod.mk.injEq] at h
        obtain ⟨h1, h2⟩ := h
        subst h1 h2
        refine ⟨ledgerShape_store_of_lookup _ _ _ _ hl rfl, rfl, rfl, ?_⟩
        intro t1 ht1
        simp only [Option.some.injEq] at ht1
        rw [← ht1]
        exact hp

theorem scanEntry_frame {now : Int} {m m1 : Master} {k : Int}
    (h : scanEntry now m k = .ok m1) :
    ledgerShape m1.TaskMeta = ledgerShape m.TaskMeta ∧
      m1.MasterPhase = m.MasterPhase ∧ m1.Intermediates = m.Intermediates := by
  unfold scanEntry at h
  split at h
  · simp only [Except.ok.injEq] at h
    subst h
    exact ⟨rfl, rfl, rfl⟩
  · rename_i mt hl
    split at h
    · split at h
      · simp at h
      · rename_i m0 hsend
        simp only [Except.ok.injEq] at h
        obtain ⟨hm0, -⟩ := send_ok hsend
        subst hm0
        subst h
        exact ⟨ledgerShape_store_of_lookup _ _ _ _ hl rfl, rfl, rfl⟩
    · simp only [Except.ok.injEq] at h
      subst h
      exact ⟨rfl, rfl, rfl⟩

theorem scanLoop_frame {now : Int} (order : List Int) :
    ∀ {m m1 : Master}, scanLoop now order m = .ok m1 →
      ledgerShape m1.TaskMeta = ledgerShape m.TaskMeta ∧
        m1.MasterPhase = m.MasterPhase ∧ m1.Intermediates = m.Intermediates := by
  induction order with
  | nil =>
    intro m m1 h
    simp only [scanLoop, Except.ok.injEq] at h
    subst h
    exact ⟨rfl, rfl, rfl⟩
  | cons k ks ih =>
    intro m m1 h
    simp only [scanLoop] at h
    split at h
    · simp at h
    · rename_i m0 h0
      obtain ⟨a1, a2, a3⟩ := scanEntry_frame h0
      obtain ⟨b1, b2, b3⟩ := ih h
      exact ⟨b1.trans a1, b2.trans a2, b3.trans a3⟩

theorem catchTimeOut_frame {now : Int} {order : List Int} {m m1 : Master} {go : Bool}
    (h : catchTimeOut m now order = .ok (m1, go)) :
    ledgerShape m1.TaskMeta = ledgerShape m.TaskMeta ∧
      m1.MasterPhase = m.MasterPhase ∧ m1.Intermediates = m.Intermediates := by
  unfold catchTimeOut at h
  split at h
  · simp only [Except.ok.injEq, Prod.mk.injEq] at h
    obtain ⟨h1, -⟩ := h
    subst h1
    exact ⟨rfl, rfl, rfl⟩
  · split at h
    · simp at h
    · rename_i m2 hloop
      simp only [Except.ok.injEq, Prod.mk.injEq] at h
      obtain ⟨h1, -⟩ := h
      subst h1
      exact scanLoop_frame order hloop

theorem allTaskDone_iff (m : Master) :
    allTaskDone m = true ↔ ∀ x ∈ m.TaskMeta, x.2.TaskStatus = MasterTaskStatus.Completed := by
  simp [allTaskDone, List.all_eq_true]

theorem processTaskResult_frame {m m1 : Master} {t : Task}
    (h : processTaskResult m t = .ok m1) :
    m1.Intermediates.length = m.Intermediates.length ∧
      (buildsReduce m t = true →
        ledgerShape m1.TaskMeta = phaseShape State.Reduce m.Intermediates.length) ∧
      (buildsReduce m t = false → m1.TaskMeta = m.TaskMeta) ∧
      (t.TaskState = State.Map → buildsReduce m t = false →
        m1.MasterPhase = m.MasterPhase) ∧
      (m.MasterPhase ≠ State.Exit → m1.MasterPhase = State.Exit →
        t.TaskState = State.Reduce ∧ allTaskDone m = true) := by
  refine ⟨?_, ?_, fun hb => processTaskResult_TaskMeta h hb, ?_, ?_⟩
  · unfold processTaskResult at h
    cases hst : t.TaskState with
    | Map =>
      rw [hst] at h
      simp only at h
      split at h
      · simp at h
      · rename_i slots hc
        have hlen := collect_length _ _ _ _ hc
        split at h
        · split at h
          · simp at h
          · rename_i m2 hcr
            simp only [Except.ok.injEq] at h
            subst h
            obtain ⟨-, h2⟩ := createReduceTask_shape hcr
            simp only [h2]
            exact hlen
        · simp only [Except.ok.injEq] at h
          subst h
          exact hlen
    | Reduce =>
      rw [hst] at h
      simp only at h
      split at h
      · simp only [Except.ok.injEq] at h
        subst h
        rfl
      · simp only [Except.ok.injEq] at h
        subst h
        rfl
    | Exit =>
      rw [hst] at h
      simp only [Except.ok.injEq] at h
      subst h
      rfl
    | Wait =>
      rw [hst] at h
      simp only [Except.ok.injEq] at h
      subst h
      rfl
  · intro hb
    unfold processTaskResult at h
    unfold buildsReduce at hb
    cases hst : t.TaskState with
    | Map =>
      rw [hst] at h hb
      simp only at h hb
      split at h
      · simp at h
      · rename_i slots hc
        have hlen := collect_length _ _ _ _ hc
        simp only [hc] at hb
        simp only [hb, if_true] at h
        split at h
        · simp at h
        · rename_i m2 hcr
          simp only [Except.ok.injEq] at h
          subst h
          obtain ⟨h1, -⟩ := createReduceTask_shape hcr
          simp only [h1]
          rw [hlen]
    | Reduce => rw [hst] at hb; simp at hb
    | Exit => rw [hst] at hb; simp at hb
    | Wait => rw [hst] at hb; simp at hb
  · intro hst hb
    unfold processTaskResult at h
    unfold buildsReduce at hb
    rw [hst] at h hb
    simp only at h hb
    split at h
    · simp at h
    · rename_i slots hc
      simp only [hc] at hb
      simp only [hb, Bool.false_eq_true, if_false, Except.ok.injEq] at h
      subst h
      rfl
  · intro hne hex
    unfold processTaskResult at h
    cases hst : t.TaskState with
    | Map =>
      rw [hst] at h
      simp only at h
      split at h
      · simp at h
      · split at h
        · split at h
          · simp at h
          · simp only [Except.ok.injEq] at h
            subst h
            simp at hex
        · simp only [Except.ok.injEq] at h
          subst h
          exact absurd hex hne
    | Reduce =>
      rw [hst] at h
      simp only at h
      split at h
      · rename_i hall
        exact ⟨rfl, hall⟩
      · simp only [Except.ok.injEq] at h
        subst h
        exact absurd hex hne
    | Exit =>
      rw [hst] at h
      simp only [Except.ok.injEq] at h
      subst h
      exact absurd hex hne
    | Wait =>
      rw [hst] at h
      simp only [Except.ok.injEq] at h
      subst h
      exact absurd hex hne

/-! ## The invariant holds in every execution -/

theorem inv_start {files : List String} {nReduce : Int} {m : Master} (t0 : Int)
    (h : MakeMaster files nReduce = .ok m) : Inv files nReduce (Sys.start m t0) := by
  obtain ⟨h1, h2, h3⟩ := MakeMaster_shape h
  refine ⟨h2, fun _ => ⟨h3, h1, ?_⟩, ?_⟩
  · intro t ht
    simp [Sys.start] at ht
  · intro hb
    simp [Sys.start] at hb

theorem inv_of_frame {files : List String} {nReduce : Int} {s s1 : Sys}
    (hinv : Inv files nReduce s)
    (hlog : Obs.built ∈ s1.log ↔ Obs.built ∈ s.log)
    (hshape : ledgerShape s1.m.TaskMeta = ledgerShape s.m.TaskMeta)
    (hphase : Obs.built ∉ s.log → s1.m.MasterPhase = s.m.MasterPhase)
    (hslots : s1.m.Intermediates.length = s.m.Intermediates.length)
    (hpend : Obs.built ∉ s.log → ∀ t ∈ s1.pending, t.TaskState = State.Map) :
    Inv files nReduce s1 := by
  refine ⟨hslots.trans hinv.slots, ?_, ?_⟩
  · intro hb
    have hb0 : Obs.built ∉ s.log := fun hh => hb (hlog.mpr hh)
    obtain ⟨h1, h2, -⟩ := hinv.before hb0
    exact ⟨(hphase hb0).trans h1, hshape.trans h2, hpend hb0⟩
  · intro hb
    exact hshape.trans (hinv.after (hlog.mp hb))

theorem inv_completed {files : List String} {nReduce : Int} {s s1 : Sys} {hd : List Task}
    {t : Task} (hinv : Inv files nReduce s) (h : s.completed hd t = .ok s1) :
    Inv files nReduce s1 := by
  unfold Sys.completed at h
  split at h
  · simp at h
  · rename_i m1 htc
    simp only [Except.ok.injEq] at h
    subst h
    obtain ⟨h1, h2, h3, -⟩ := TaskCompleted_frame htc
    exact inv_of_frame hinv Iff.rfl h1 (fun _ => h2) (by rw [h3])
      (fun hb => (hinv.before hb).2.2)
  · rename_i m1 t1 htc
    simp only [Except.ok.injEq] at h
    subst h
    obtain ⟨h1, h2, h3, h4⟩ := TaskCompleted_frame htc
    refine inv_of_frame hinv (by simp) h1 (fun _ => h2) (by rw [h3]) ?_
    intro hb x hx
    simp only [List.mem_append, List.mem_singleton] at hx
    rcases hx with hx | hx
    · exact (hinv.before hb).2.2 x hx
    · rw [hx, h4 t1 rfl]
      exact (hinv.before hb).1

theorem mem_of_get? {α : Type} {l : List α} {i : Nat} {a : α} (h : l.get? i = some a) :
    a ∈ l :=
  List.get?_mem h

theorem inv_step {files : List String} {nReduce : Int} {s s1 : Sys} {e : Event}
    (hinv : Inv files nReduce s) (h : step s e = .ok s1) : Inv files nReduce s1 := by
  cases e with
  | tick d =>
    simp only [step, Except.ok.injEq] at h
    subst h
    exact inv_of_frame hinv Iff.rfl rfl (fun _ => rfl) rfl (fun hb => (hinv.before hb).2.2)
  | assign =>
    simp only [step] at h
    split at h
    · simp at h
    · rename_i m1 reply hat
      obtain ⟨h1, h2, h3⟩ := AssignTask_frame hat
      split at h
      · simp only [Except.ok.injEq] at h
        subst h
        exact inv_of_frame hinv (by simp) h1 (fun _ => h2) (by rw [h3])
          (fun hb => (hinv.before hb).2.2)
      · simp only [Except.ok.injEq] at h
        subst h
        exact inv_of_frame hinv Iff.rfl h1 (fun _ => h2) (by rw [h3])
          (fun hb => (hinv.before hb).2.2)
  | report i locs =>
    simp only [step] at h
    split at h
    · simp only [Except.ok.injEq] at h
      subst h
      exact hinv
    · split at h
      · simp only [Except.ok.injEq] at h
        subst h
        exact hinv
      · exact inv_completed hinv h
  | call t =>
    simp only [step] at h
    exact inv_completed hinv h
  | process i =>
    simp only [step] at h
    split at h
    · simp only [Except.ok.injEq] at h
      subst h
      exact hinv
    · rename_i t hget
      split at h
      · simp at h
      · rename_i m1 hp
        simp only [Except.ok.injEq] at h
        subst h
        obtain ⟨f1, f2, f3, f4, -⟩ := processTaskResult_frame hp
        cases hb : buildsReduce s.m t with
        | true =>
          refine ⟨f1.trans hinv.slots, ?_, ?_⟩
          · intro hnb
            simp at hnb
          · intro _
            rw [f2 hb, hinv.slots]
        | false =>
          have hsub : ∀ x ∈ s.pending.eraseIdx i, x ∈ s.pending :=
            fun x hx => (List.eraseIdx_sublist s.pending i).subset hx
          refine inv_of_frame hinv (by simp) (by simp only [f3 hb]) ?_ f1 ?_
          · intro hnb
            have hmap := (hinv.before hnb).2.2 t (mem_of_get? hget)
            exact f4 hmap hb
          · intro hnb x hx
            exact (hinv.before hnb).2.2 x (hsub x hx)
  | scan order =>
    simp only [step] at h
    split at h
    · simp at h
    · rename_i m1 hct
      simp only [Except.ok.injEq] at h
      subst h
      obtain ⟨h1, h2, h3⟩ := catchTimeOut_frame hct
      have hlog : Obs.built ∈
          s.log ++ (m1.TaskQueue.drop s.m.TaskQueue.length).map Obs.requeued
            ↔ Obs.built ∈ s.log := by
        constructor
        · intro hh
          rcases List.mem_append.mp hh with hh | hh
          · exact hh
          · obtain ⟨x, -, hx⟩ := List.mem_map.mp hh
            cases hx
        · exact fun hh => List.mem_append.mpr (Or.inl hh)
      exact inv_of_frame hinv hlog h1 (fun _ => h2) (by rw [h3])
        (fun hb => (hinv.before hb).2.2)
    · rename_i m1 hct
      simp only [Except.ok.injEq] at h
      subst h
      obtain ⟨h1, h2, h3⟩ := catchTimeOut_frame hct
      exact inv_of_frame hinv Iff.rfl h1 (fun _ => h2) (by rw [h3])
        (fun hb => (hinv.before hb).2.2)

theorem inv_reachable {files : List String} {nReduce : Int} {s : Sys}
    (hs : Reachable files nReduce s) : Inv files nReduce s := by
  induction hs with
  | start m t0 h => exact inv_start t0 h
  | next s e s1 _ _ h ih => exact inv_step ih h

theorem step_phase_exit {s s1 : Sys} {e : Event} (h : step s e = .ok s1)
    (hne : s.m.MasterPhase ≠ State.Exit) (hex : s1.m.MasterPhase = State.Exit) :
    ∃ i t, e = Event.process i ∧ s.pending.get? i = some t ∧
      t.TaskState = State.Reduce ∧ allTaskDone s.m = true := by
  have same : s1.m.MasterPhase = s.m.MasterPhase → False := fun hh => hne (hh ▸ hex)
  cases e with
  | tick d =>
    simp only [step, Except.ok.injEq] at h
    subst h
    exact (same rfl).elim
  | assign =>
    simp only [step] at h
    split at h
    · simp at h
    · rename_i m1 reply hat
      obtain ⟨-, h2, -⟩ := AssignTask_frame hat
      split at h
      · simp only [Except.ok.injEq] at h
        subst h
        exact (same h2).elim
      · simp only [Except.ok.injEq] at h
        subst h
        exact (same h2).elim
  | report i locs =>
    simp only [step] at h
    split at h
    · simp only [Except.ok.injEq] at h
      subst h
      exact (same rfl).elim
    · split at h
      · simp only [Except.ok.injEq] at h
        subst h
        exact (same rfl).elim
      · unfold Sys.completed at h
        split at h
        · simp at h
        · rename_i m1 htc
          simp only [Except.ok.injEq] at h
          subst h
          exact (same (TaskCompleted_frame htc).2.1).elim
        · rename_i m1 t1 htc
          simp only [Except.ok.injEq] at h
          subst h
          exact (same (TaskCompleted_frame htc).2.1).elim
  | call t =>
    simp only [step] at h
    unfold Sys.completed at h
    split at h
    · simp at h
    · rename_i m1 htc
      simp only [Except.ok.injEq] at h
      subst h
      exact (same (TaskCompleted_frame htc).2.1).elim
    · rename_i m1 t1 htc
      simp only [Except.ok.injEq] at h
      subst h
      exact (same (TaskCompleted_frame htc).2.1).elim
  | process i =>
    simp only [step] at h
    split at h
    · simp only [Except.ok.injEq] at h
      subst h
      exact (same rfl).elim
    · rename_i t hget
      split at h
      · simp at h
      · rename_i m1 hp
        simp only [Except.ok.injEq] at h
        subst h
        obtain ⟨-, -, -, -, f5⟩ := processTaskResult_frame hp
        obtain ⟨g1, g2⟩ := f5 hne hex
        exact ⟨i, t, rfl, hget, g1, g2⟩
  | scan order =>
    simp only [step] at h
    split at h
    · simp at h
    · rename_i m1 hct
      simp only [Except.ok.injEq] at h
      subst h
      exact (same (catchTimeOut_frame hct).2.1).elim
    · rename_i m1 hct
      simp only [Except.ok.injEq] at h
      subst h
      exact (same (catchTimeOut_frame hct).2.1).elim

theorem step_built {s s1 : Sys} {e : Event} (h : step s e = .ok s1)
    (hnb : Obs.built ∉ s.log) (hb : Obs.built ∈ s1.log) :
    ∃ i t, e = Event.process i ∧ s.pending.get? i = some t ∧ buildsReduce s.m t = true := by
  have same : s1.log = s.log → False := fun hh => hnb (hh ▸ hb)
  cases e with
  | tick d =>
    simp only [step, Except.ok.injEq] at h
    subst h
    exact (same rfl).elim
  | assign =>
    simp only [step] at h
    split at h
    · simp at h
    · split at h
      · simp only [Except.ok.injEq] at h
        subst h
        simp at hb
        exact (hnb hb).elim
      · simp only [Except.ok.injEq] at h
        subst h
        exact (same rfl).elim
  | report i locs =>
    simp only [step] at h
    split at h
    · simp only [Except.ok.injEq] at h
      subst h
      exact (same rfl).elim
    · split at h
      · simp only [Except.ok.injEq] at h
        subst h
        exact (same rfl).elim
      · unfold Sys.completed at h
        split at h
        · simp at h
        · simp only [Except.ok.injEq] at h
          subst h
          exact (same rfl).elim
        · simp only [Except.ok.injEq] at h
          subst h
          simp at hb
          exact (hnb hb).elim
  | call t =>
    simp only [step] at h
    unfold Sys.completed at h
    split at h
    · simp at h
    · simp only [Except.ok.injEq] at h
      subst h
      exact (same rfl).elim
    · simp only [Except.ok.injEq] at h
      subst h
      simp at hb
      exact (hnb hb).elim
  | process i =>
    simp only [step] at h
    split at h
    · simp only [Except.ok.injEq] at h
      subst h
      exact (same rfl).elim
    · rename_i t hget
      split at h
      · simp at h
      · simp only [Except.ok.injEq] at h
        subst h
        refine ⟨i, t, rfl, hget, ?_⟩
        by_contra hbr
        simp only [Bool.not_eq_true] at hbr
        simp [hbr] at hb
        exact hnb hb
  | scan order =>
    simp only [step] at h
    split at h
    · simp at h
    · simp only [Except.ok.injEq] at h
      subst h
      rcases List.mem_append.mp hb with hh | hh
      · exact (hnb hh).elim
      · obtain ⟨x, -, hx⟩ := List.mem_map.mp hh
        cases hx
    · simp only [Except.ok.injEq] at h
      subst h
      exact (same rfl).elim

theorem processTaskResult_of_buildsReduce {m : Master} {t : Task}
    (h : buildsReduce m t = true) :
    ∃ slots, collect 0 t.Intermediates m.Intermediates = .ok slots ∧
      processTaskResult m t =
        match createReduceTask { m with Intermediates := slots } with
        | .error e => .error e
        | .ok m2 => .ok { m2 with MasterPhase := State.Reduce } := by
  unfold buildsReduce at h
  unfold processTaskResult
  cases hst : t.TaskState with
  | Map =>
    rw [hst] at h
    simp only at h ⊢
    cases hc : collect 0 t.Intermediates m.Intermediates with
    | error x => simp [hc] at h
    | ok slots =>
      simp only [hc] at h
      exact ⟨slots, rfl, by simp only [h, if_true]⟩
  | Reduce => rw [hst] at h; simp at h
  | Exit => rw [hst] at h; simp at h
  | Wait => rw [hst] at h; simp at h

theorem buildsReduce_allTaskDone {m : Master} {t : Task} (h : buildsReduce m t = true) :
    ∀ x ∈ m.TaskMeta, x.2.TaskStatus = MasterTaskStatus.Completed := by
  unfold buildsReduce at h
  split at h
  · split at h
    · simp at h
    · exact (allTaskDone_iff _).mp h
  · simp at h

/-! ## Phase gating -/

theorem stateBeforeBuild_reachable : Reachable ["a"] 1 stateBeforeBuild := by
  have h : execFrom ["a"] 1 [Event.assign, Event.report 0 ["/w/mr-0-0"]]
      = some stateBeforeBuild := by rfl
  exact (execFrom_honestReachable h).reachable

theorem stateBeforeExit_reachable : Reachable ["a"] 1 stateBeforeExit := by
  have h : execFrom ["a"] 1
      [Event.assign, Event.report 0 ["/w/mr-0-0"], Event.process 0,
       Event.assign, Event.report 0 ["/w/mr-0-0"]] = some stateBeforeExit := by rfl
  exact (execFrom_honestReachable h).reachable

/-- C5: in every execution from `MakeMaster files nReduce`, (1) a step after
which `createReduceTask` has run for the first time starts in the Map phase
with the ledger built by `createMapTask` (keys `0 .. len(files)-1`, each entry
referring to its Map task) and every entry `Completed`; the same holds as soon
as a pending `processTaskResult` is about to call `createReduceTask` for the
first time; (2) a step that makes `Done` true (sets `MasterPhase` to `Exit`)
starts with a ledger built by `createReduceTask` (keys `0 .. nReduce-1`, each
entry referring to its Reduce task) and every entry `Completed`. -/
theorem phase_gating (files : List String) (nReduce : Int) (s : Sys)
    (hs : Reachable files nReduce s) :
    (∀ e s1, step s e = .ok s1 → Obs.built ∉ s.log → Obs.built ∈ s1.log →
      s.m.MasterPhase = State.Map ∧
      ledgerShape s.m.TaskMeta = phaseShape State.Map files.length ∧
      ∀ x ∈ s.m.TaskMeta, x.2.TaskStatus = MasterTaskStatus.Completed) ∧
    (∀ i t, Obs.built ∉ s.log → s.pending.get? i = some t → buildsReduce s.m t = true →
      s.m.MasterPhase = State.Map ∧
      ledgerShape s.m.TaskMeta = phaseShape State.Map files.length ∧
      ∀ x ∈ s.m.TaskMeta, x.2.TaskStatus = MasterTaskStatus.Completed) ∧
    (∀ e s1, step s e = .ok s1 → Done s.m = false → Done s1.m = true →
      ledgerShape s.m.TaskMeta = phaseShape State.Reduce nReduce.toNat ∧
      ∀ x ∈ s.m.TaskMeta, x.2.TaskStatus = MasterTaskStatus.Completed) := by
  have hinv := inv_reachable hs
  have part : ∀ i t, Obs.built ∉ s.log → s.pending.get? i = some t →
      buildsReduce s.m t = true →
      s.m.MasterPhase = State.Map ∧
      ledgerShape s.m.TaskMeta = phaseShape State.Map files.length ∧
      ∀ x ∈ s.m.TaskMeta, x.2.TaskStatus = MasterTaskStatus.Completed := by
    intro i t hnb _ hb
    obtain ⟨h1, h2, -⟩ := hinv.before hnb
    exact ⟨h1, h2, buildsReduce_allTaskDone hb⟩
  refine ⟨?_, part, ?_⟩
  · intro e s1 hstep hnb hb
    obtain ⟨i, t, -, hget, hbr⟩ := step_built hstep hnb hb
    exact part i t hnb hget hbr
  · intro e s1 hstep hd hd1
    simp only [Done, decide_eq_false_iff_not, decide_eq_true_eq] at hd hd1
    obtain ⟨i, t, -, hget, hred, hall⟩ := step_phase_exit hstep hd hd1
    have hbuilt : Obs.built ∈ s.log := by
      by_contra hnb
      have := (hinv.before hnb).2.2 t (mem_of_get? hget)
      rw [hred] at this
      cases this
    exact ⟨hinv.after hbuilt, (allTaskDone_iff _).mp hall⟩

/-- Instances of C5 with file `a` and one reduce partition: the step that
builds the Reduce task, the pending goroutine about to build it, and the step
that enters `Exit`. -/
theorem phase_gating_witness :
    (stateBeforeBuild.m.MasterPhase = State.Map ∧
      ledgerShape stateBeforeBuild.m.TaskMeta = phaseShape State.Map ["a"].length ∧
      ∀ x ∈ stateBeforeBuild.m.TaskMeta, x.2.TaskStatus = MasterTaskStatus.Completed) ∧
    (stateBeforeBuild.m.MasterPhase = State.Map ∧
      ledgerShape stateBeforeBuild.m.TaskMeta = phaseShape State.Map ["a"].length ∧
      ∀ x ∈ stateBeforeBuild.m.TaskMeta, x.2.TaskStatus = MasterTaskStatus.Completed) ∧
    (ledgerShape stateBeforeExit.m.TaskMeta = phaseShape State.Reduce (1 : Int).toNat ∧
      ∀ x ∈ stateBeforeExit.m.TaskMeta, x.2.TaskStatus = MasterTaskStatus.Completed) :=
  ⟨(phase_gating ["a"] 1 stateBeforeBuild stateBeforeBuild_reachable).1
      (Event.process 0)
      ((step stateBeforeBuild (Event.process 0)).toOption.getD stateBeforeBuild)
      (by rfl) (by decide) (by decide),
   (phase_gating ["a"] 1 stateBeforeBuild stateBeforeBuild_reachable).2.1
      0 reportA (by decide) (by rfl) (by rfl),
   (phase_gating ["a"] 1 stateBeforeExit stateBeforeExit_reachable).2.2
      (Event.process 0) stateExit (by rfl) (by rfl) (by rfl)⟩

/-! ## The task sets built by `createMapTask` and `createReduceTask` -/

theorem lookup_append_of_none (k : Int) (l l2 : List (Int × MasterTask))
    (h : lookup k l = none) : lookup k (l ++ l2) = lookup k l2 := by
  induction l with
  | nil => rfl
  | cons x rest ih =>
    obtain ⟨k1, v1⟩ := x
    by_cases hk : k1 = k
    · simp [lookup, hk] at h
    · simp only [lookup, hk, if_false] at h
      simp [lookup, hk, ih h]

theorem lookup_append_of_some (k : Int) (l l2 : List (Int × MasterTask)) (e : MasterTask)
    (h : lookup k l = some e) : lookup k (l ++ l2) = some e := by
  induction l with
  | nil => simp [lookup] at h
  | cons x rest ih =>
    obtain ⟨k1, v1⟩ := x
    by_cases hk : k1 = k
    · simp only [lookup, hk, if_true] at h
      simp [lookup, hk, h]
    · simp only [lookup, hk, if_false] at h
      simp [lookup, hk, ih h]

theorem createMapTaskLoop_eq (files : List String) :
    ∀ (idx : Nat) (m : Master),
      (∀ j : Nat, idx ≤ j → lookup (j : Int) m.TaskMeta = none) →
      m.TaskQueue.length + files.length ≤ m.QueueCap →
      createMapTaskLoop idx files m =
        .ok { m with TaskQueue := m.TaskQueue ++ mapTasks m.NReduce idx files,
                     TaskMeta := m.TaskMeta ++ ledgerOf (mapTasks m.NReduce idx files) } := by
  induction files with
  | nil =>
    intro idx m _ _
    simp [createMapTaskLoop, mapTasks, ledgerOf]
  | cons f rest ih =>
    intro idx m hfresh hroom
    simp only [List.length_cons] at hroom
    have hlt : m.TaskQueue.length < m.QueueCap := by omega
    simp only [createMapTaskLoop, send, hlt, if_true]
    rw [store_fresh _ _ _ (hfresh idx (le_refl _))]
    rw [ih (idx + 1)]
    · simp [mapTasks, ledgerOf, mapTask, freshEntry, List.append_assoc]
    · intro j hj
      rw [lookup_append_of_none _ _ _ (hfresh j (by omega))]
      have hne : ¬ ((idx : Int) = (j : Int)) := by omega
      simp [lookup, hne]
    · simp only [List.length_append, List.length_singleton]
      omega

theorem createReduceTaskLoop_eq (slots : List (List String)) :
    ∀ (idx : Nat) (m : Master),
      (∀ j : Nat, idx ≤ j → lookup (j : Int) m.TaskMeta = none) →
      m.TaskQueue.length + slots.length ≤ m.QueueCap →
      createReduceTaskLoop idx slots m =
        .ok { m with TaskQueue := m.TaskQueue ++ reduceTasks m.NReduce idx slots,
                     TaskMeta := m.TaskMeta ++ ledgerOf (reduceTasks m.NReduce idx slots) } := by
  induction slots with
  | nil =>
    intro idx m _ _
    simp [createReduceTaskLoop, reduceTasks, ledgerOf]
  | cons f rest ih =>
    intro idx m hfresh hroom
    simp only [List.length_cons] at hroom
    have hlt : m.TaskQueue.length < m.QueueCap := by omega
    simp only [createReduceTaskLoop, send, hlt, if_true]
    rw [store_fresh _ _ _ (hfresh idx (le_refl _))]
    rw [ih (idx + 1)]
    · simp [reduceTasks, ledgerOf, reduceTask, freshEntry, List.append_assoc]
    · intro j hj
      rw [lookup_append_of_none _ _ _ (hfresh j (by omega))]
      have hne : ¬ ((idx : Int) = (j : Int)) := by omega
      simp [lookup, hne]
    · simp only [List.length_append, List.length_singleton]
      omega

theorem createReduceTask_eq (m : Master)
    (hroom : m.TaskQueue.length + m.Intermediates.length ≤ m.QueueCap) :
    createReduceTask m =
      .ok { m with TaskQueue := m.TaskQueue ++ reduceTasks m.NReduce 0 m.Intermediates,
                   TaskMeta := ledgerOf (reduceTasks m.NReduce 0 m.Intermediates) } := by
  unfold createReduceTask
  rw [createReduceTaskLoop_eq]
  · simp
  · intro j _
    rfl
  · exact hroom

theorem mapTasks_length (nReduce : Int) (files : List String) :
    ∀ idx : Nat, (mapTasks nReduce idx files).length = files.length := by
  induction files with
  | nil => intro idx; rfl
  | cons f rest ih => intro idx; simp [mapTasks, ih]

theorem reduceTasks_length (nReduce : Int) (slots : List (List String)) :
    ∀ idx : Nat, (reduceTasks nReduce idx slots).length = slots.length := by
  induction slots with
  | nil => intro idx; rfl
  | cons f rest ih => intro idx; simp [reduceTasks, ih]

theorem mapTasks_get? (nReduce : Int) (files : List String) :
    ∀ (idx i : Nat) (f : String), files.get? i = some f →
      (mapTasks nReduce idx files).get? i = some (mapTask f nReduce ((idx + i : Nat) : Int)) := by
  induction files with
  | nil => intro idx i f h; simp at h
  | cons f0 rest ih =>
    intro idx i f h
    cases i with
    | zero =>
      simp only [List.get?_cons_zero, Option.some.injEq] at h
      simp [mapTasks, h]
    | succ i =>
      simp only [List.get?_cons_succ] at h
      simp only [mapTasks, List.get?_cons_succ]
      rw [ih (idx + 1) i f h]
      congr 3
      omega

theorem reduceTasks_get? (nReduce : Int) (slots : List (List String)) :
    ∀ (idx i : Nat) (f : List String), slots.get? i = some f →
      (reduceTasks nReduce idx slots).get? i
        = some (reduceTask nReduce ((idx + i : Nat) : Int) f) := by
  induction slots with
  | nil => intro idx i f h; simp at h
  | cons f0 rest ih =>
    intro idx i f h
    cases i with
    | zero =>
      simp only [List.get?_cons_zero, Option.some.injEq] at h
      simp [reduceTasks, h]
    | succ i =>
      simp only [List.get?_cons_succ] at h
      simp only [reduceTasks, List.get?_cons_succ]
      rw [ih (idx + 1) i f h]
      congr 3
      omega

theorem keys_ledgerOf_mapTasks (nReduce : Int) (files : List String) :
    ∀ idx : Nat, keys (ledgerOf (mapTasks nReduce idx files))
      = (List.range' idx files.length).map (fun i : Nat => (i : Int)) := by
  induction files with
  | nil => intro idx; rfl
  | cons f rest ih =>
    intro idx
    have := ih (idx + 1)
    simp only [keys, ledgerOf, List.map_map] at this
    simp [keys, ledgerOf, mapTasks, mapTask, List.range', this]

theorem keys_ledgerOf_reduceTasks (nReduce : Int) (slots : List (List String)) :
    ∀ idx : Nat, keys (ledgerOf (reduceTasks nReduce idx slots))
      = (List.range' idx slots.length).map (fun i : Nat => (i : Int)) := by
  induction slots with
  | nil => intro idx; rfl
  | cons f rest ih =>
    intro idx
    have := ih (idx + 1)
    simp only [keys, ledgerOf, List.map_map] at this
    simp [keys, ledgerOf, reduceTasks, reduceTask, List.range', this]

theorem lookup_ledgerOf_mapTasks (nReduce : Int) (files : List String) :
    ∀ (idx i : Nat) (f : String), files.get? i = some f →
      lookup ((idx + i : Nat) : Int) (ledgerOf (mapTasks nReduce idx files))
        = some (freshEntry (mapTask f nReduce ((idx + i : Nat) : Int))) := by
  induction files with
  | nil => intro idx i f h; simp at h
  | cons f0 rest ih =>
    intro idx i f h
    cases i with
    | zero =>
      simp only [List.get?_cons_zero, Option.some.injEq] at h
      simp [mapTasks, ledgerOf, lookup, mapTask, h]
    | succ i =>
      simp only [List.get?_cons_succ] at h
      have hne : ¬ ((idx : Int) = ((idx + (i + 1) : Nat) : Int)) := by omega
      have h2 := ih (idx + 1) i f h
      have he : idx + 1 + i = idx + (i + 1) := by omega
      rw [he] at h2
      simp only [mapTasks, ledgerOf, List.map_cons, lookup, mapTask, hne, if_false]
      simpa [ledgerOf, mapTask] using h2

theorem lookup_ledgerOf_reduceTasks (nReduce : Int) (slots : List (List String)) :
    ∀ (idx i : Nat) (f : List String), slots.get? i = some f →
      lookup ((idx + i : Nat) : Int) (ledgerOf (reduceTasks nReduce idx slots))
        = some (freshEntry (reduceTask nReduce ((idx + i : Nat) : Int) f)) := by
  induction slots with
  | nil => intro idx i f h; simp at h
  | cons f0 rest ih =>
    intro idx i f h
    cases i with
    | zero =>
      simp only [List.get?_cons_zero, Option.some.injEq] at h
      simp [reduceTasks, ledgerOf, lookup, reduceTask, h]
    | succ i =>
      simp only [List.get?_cons_succ] at h
      have hne : ¬ ((idx : Int) = ((idx + (i + 1) : Nat) : Int)) := by omega
      have h2 := ih (idx + 1) i f h
      have he : idx + 1 + i = idx + (i + 1) := by omega
      rw [he] at h2
      simp only [reduceTasks, ledgerOf, List.map_cons, lookup, reduceTask, hne, if_false]
      simpa [ledgerOf, reduceTask] using h2

/-! ## `MakeMaster` -/

theorem max_eq_max (a b : Int) : max a b = Max.max a b := by
  unfold max
  split <;> omega

/-- C14 fails on the code as stated: `2^62` is a non-negative value of type
`int`, but `MakeMaster` with `nReduce = 2^62` does not return a state:
`make(chan *Task, max(nReduce, len(files)))` asks for `8 * 2^62` bytes and
panics (`makechan: size out of range`).  The same happens in `make([][]string,
nReduce)` as soon as `24 * nReduce` exceeds `2^48`. -/
theorem MakeMaster_huge_nReduce_panics :
    (0 : Int) ≤ 2 ^ 62 ∧ (2 : Int) ^ 62 ≤ 2 ^ 63 - 1 ∧
    MakeMaster ["a"] (2 ^ 62) = .error Fault.makeOutOfRange ∧
    MakeMaster [] 11728124029611 = .error Fault.makeOutOfRange := by
  refine ⟨by decide, by decide, ?_, ?_⟩
  · rfl
  · rfl

/-- C14 (amended): for `nReduce >= 0` such that the runtime accepts both
`make` calls (`8 * max(nReduce, len(files)) <= 2^48 - 96` for the channel and
`24 * nReduce <= 2^48` for the index) and finds the memory they ask for,
`MakeMaster files nReduce` returns a
state in the Map phase whose index has `nReduce` empty slots, whose ledger
has exactly `len(files)` entries keyed `0 .. len(files)-1`, the entry at `i`
being `Idle` and referring to the Map task with `Input = files[i]`,
`TaskNumber = i` and `NReducer = nReduce`, and whose queue holds exactly
these tasks in index order; the capacity is the larger of `nReduce` and
`len(files)`, hence at least `len(files)`, so no send blocks. -/
theorem MakeMaster_state (files : List String) (nReduce : Int) (hn : 0 ≤ nReduce)
    (hchan : 8 * Max.max nReduce (files.length : Int) ≤ 281474976710560)
    (hslice : 24 * nReduce ≤ 281474976710656) :
    ∃ m, MakeMaster files nReduce = .ok m ∧
      m.MasterPhase = State.Map ∧
      m.Intermediates = List.replicate nReduce.toNat [] ∧
      m.QueueCap = Max.max nReduce.toNat files.length ∧
      files.length ≤ m.QueueCap ∧
      m.NReduce = nReduce ∧ m.InputFiles = files ∧
      m.TaskMeta.length = files.length ∧
      keys m.TaskMeta = (List.range files.length).map (fun i : Nat => (i : Int)) ∧
      m.TaskQueue.length = files.length ∧
      ∀ (i : Nat) (f : String), files.get? i = some f →
        lookup (i : Int) m.TaskMeta =
          some { TaskStatus := MasterTaskStatus.Idle, StartTime := zeroTime,
                 TaskReference :=
                   { Input := f, TaskState := State.Map, NReducer := nReduce,
                     TaskNumber := (i : Int), Intermediates := [], Output := "" } } ∧
        m.TaskQueue.get? i =
          some { Input := f, TaskState := State.Map, NReducer := nReduce,
                 TaskNumber := (i : Int), Intermediates := [], Output := "" } := by
  have hcapeq : (max nReduce (files.length : Int)).toNat = Max.max nReduce.toNat files.length := by
    rw [max_eq_max]
    omega
  have hcap : files.length ≤ (max nReduce (files.length : Int)).toNat := by
    rw [hcapeq]
    exact le_max_right _ _
  have hc1 : ¬ (8 * max nReduce (files.length : Int) > maxAlloc - hchanSize) := by
    rw [max_eq_max]
    unfold maxAlloc hchanSize
    omega
  have hnn : ¬ nReduce < 0 := by omega
  have hc2 : ¬ (24 * nReduce > maxAlloc) := by
    unfold maxAlloc
    omega
  have hmk : MakeMaster files nReduce =
      .ok { TaskQueue := [] ++ mapTasks nReduce 0 files,
            QueueCap := (max nReduce (files.length : Int)).toNat,
            TaskMeta := [] ++ ledgerOf (mapTasks nReduce 0 files),
            MasterPhase := State.Map, NReduce := nReduce, InputFiles := files,
            Intermediates := List.replicate nReduce.toNat [] } := by
    unfold MakeMaster createMapTask
    simp only [hc1, hnn, hc2, if_false]
    rw [createMapTaskLoop_eq]
    · intro j _
      rfl
    · simpa using hcap
  refine ⟨_, hmk, ?_⟩
  · refine ⟨rfl, rfl, hcapeq, hcap, rfl, rfl, ?_, ?_, ?_, ?_⟩
    · simp [ledgerOf, mapTasks_length]
    · simp only [List.nil_append]
      rw [keys_ledgerOf_mapTasks, List.range_eq_range']
    · simp [mapTasks_length]
    · intro i f hf
      simp only [List.nil_append]
      have h1 := lookup_ledgerOf_mapTasks nReduce files 0 i f hf
      have h2 := mapTasks_get? nReduce files 0 i f hf
      simp only [Nat.zero_add] at h1 h2
      exact ⟨h1, h2⟩

/-- Instances of C14 (amended): two files with three reduce partitions (the
capacity is 3) and two files with one reduce partition (the capacity is
2). -/
theorem MakeMaster_state_witness :
    (∃ m, MakeMaster ["a", "b"] 3 = .ok m ∧
      m.MasterPhase = State.Map ∧
      m.Intermediates = [[], [], []] ∧
      m.QueueCap = 3 ∧
      2 ≤ m.QueueCap ∧
      m.NReduce = 3 ∧ m.InputFiles = ["a", "b"] ∧
      m.TaskMeta.length = 2 ∧
      keys m.TaskMeta = [0, 1] ∧
      m.TaskQueue.length = 2 ∧
      ∀ (i : Nat) (f : String), (["a", "b"] : List String).get? i = some f →
        lookup (i : Int) m.TaskMeta =
          some { TaskStatus := MasterTaskStatus.Idle, StartTime := zeroTime,
                 TaskReference :=
                   { Input := f, TaskState := State.Map, NReducer := 3,
                     TaskNumber := (i : Int), Intermediates := [], Output := "" } } ∧
        m.TaskQueue.get? i =
          some { Input := f, TaskState := State.Map, NReducer := 3,
                 TaskNumber := (i : Int), Intermediates := [], Output := "" }) ∧
    (∃ m, MakeMaster ["a", "b"] 1 = .ok m ∧
      m.MasterPhase = State.Map ∧
      m.Intermediates = [[]] ∧
      m.QueueCap = 2 ∧
      2 ≤ m.QueueCap ∧
      m.NReduce = 1 ∧ m.InputFiles = ["a", "b"] ∧
      m.TaskMeta.length = 2 ∧
      keys m.TaskMeta = [0, 1] ∧
      m.TaskQueue.length = 2 ∧
      ∀ (i : Nat) (f : String), (["a", "b"] : List String).get? i = some f →
        lookup (i : Int) m.TaskMeta =
          some { TaskStatus := MasterTaskStatus.Idle, StartTime := zeroTime,
                 TaskReference :=
                   { Input := f, TaskState := State.Map, NReducer := 1,
                     TaskNumber := (i : Int), Intermediates := [], Output := "" } } ∧
        m.TaskQueue.get? i =
          some { Input := f, TaskState := State.Map, NReducer := 1,
                 TaskNumber := (i : Int), Intermediates := [], Output := "" }) :=
  ⟨MakeMaster_state ["a", "b"] 3 (by decide) (by decide) (by decide),
   MakeMaster_state ["a", "b"] 1 (by decide) (by decide) (by decide)⟩

/-! ## `processTaskResult` -/

theorem collect_spec (xs : List String) :
    ∀ (i : Nat) (slots : List (List String)), i + xs.length ≤ slots.length →
      ∃ slots1, collect i xs slots = .ok slots1 ∧
        slots1.length = slots.length ∧
        (∀ (j : Nat) (x : String), xs.get? j = some x →
          ∃ s, slots.get? (i + j) = some s ∧ slots1.get? (i + j) = some (s ++ [x])) ∧
        (∀ j : Nat, (j < i ∨ i + xs.length ≤ j) → slots1.get? j = slots.get? j) := by
  induction xs with
  | nil =>
    intro i slots _
    refine ⟨slots, rfl, rfl, ?_, fun _ _ => rfl⟩
    intro j x h
    simp at h
  | cons x rest ih =>
    intro i slots hlen
    simp only [List.length_cons] at hlen
    have hi : i < slots.length := by omega
    obtain ⟨slot, hslot⟩ : ∃ slot, slots.get? i = some slot :=
      ⟨slots.get ⟨i, hi⟩, List.get?_eq_get hi⟩
    obtain ⟨slots1, h1, h2, h3, h4⟩ := ih (i + 1) (slots.set i (slot ++ [x]))
      (by simp only [List.length_set]; omega)
    refine ⟨slots1, ?_, ?_, ?_, ?_⟩
    · simp only [collect, hslot]
      exact h1
    · rw [h2, List.length_set]
    · intro j y hy
      cases j with
      | zero =>
        simp only [List.get?_cons_zero, Option.some.injEq] at hy
        subst hy
        refine ⟨slot, hslot, ?_⟩
        rw [Nat.add_zero, h4 i (Or.inl (Nat.lt_succ_self i))]
        simp [List.get?_eq_getElem?, List.getElem?_set_self, hi]
      | succ j =>
        simp only [List.get?_cons_succ] at hy
        obtain ⟨s, hs1, hs2⟩ := h3 j y hy
        have he : i + 1 + j = i + (j + 1) := by omega
        rw [he] at hs1 hs2
        refine ⟨s, ?_, hs2⟩
        have hne : i ≠ i + (j + 1) := by omega
        simpa [List.get?_eq_getElem?, List.getElem?_set_ne hne] using hs1
    · intro j hj
      simp only [List.length_cons] at hj
      have hne : i ≠ j := by omega
      rw [h4 j (by omega)]
      simp [List.get?_eq_getElem?, List.getElem?_set_ne hne]

theorem processTaskResult_build_eq (m : Master) (t : Task) (slots : List (List String))
    (hmap : t.TaskState = State.Map)
    (hc : collect 0 t.Intermediates m.Intermediates = .ok slots)
    (hdone : allTaskDone m = true)
    (hroom : m.TaskQueue.length + slots.length ≤ m.QueueCap) :
    processTaskResult m t =
      .ok { m with TaskQueue := m.TaskQueue ++ reduceTasks m.NReduce 0 slots,
                   TaskMeta := ledgerOf (reduceTasks m.NReduce 0 slots),
                   MasterPhase := State.Reduce,
                   Intermediates := slots } := by
  have hd : allTaskDone { m with Intermediates := slots } = true := hdone
  unfold processTaskResult
  rw [hmap]
  simp only [hc, hd, if_true]
  rw [createReduceTask_eq _ hroom]

/-- C12: when `processTaskResult` for a Map report (of at most as many
locations as the index has slots) finds every ledger entry `Completed` and
the queue has room for `nReduce` more tasks, it returns a state with
`MasterPhase = Reduce` whose ledger has exactly `nReduce` entries, keyed
`0 .. nReduce-1`, the entry at `r` being `Idle` and referring to the task
with `TaskState = Reduce`, `TaskNumber = r`, `NReducer = nReduce` and
`Intermediates` equal to slot `r` of the index; exactly these tasks, in this
order, are appended to the queue.  When `processTaskResult` for a Reduce
report finds every ledger entry `Completed`, it only sets `MasterPhase` to
`Exit`. -/
theorem processTaskResult_transition (m : Master) (t : Task) (hdone : allTaskDone m = true) :
    (t.TaskState = State.Map →
      t.Intermediates.length ≤ m.Intermediates.length →
      m.Intermediates.length = m.NReduce.toNat →
      m.TaskQueue.length + m.NReduce.toNat ≤ m.QueueCap →
      ∃ m2 added, processTaskResult m t = .ok m2 ∧
        m2.MasterPhase = State.Reduce ∧
        m2.TaskMeta.length = m.NReduce.toNat ∧
        keys m2.TaskMeta = (List.range m.NReduce.toNat).map (fun i : Nat => (i : Int)) ∧
        m2.TaskQueue = m.TaskQueue ++ added ∧
        added.length = m.NReduce.toNat ∧
        m2.Intermediates.length = m.NReduce.toNat ∧
        (∀ (r : Nat) (files : List String), m2.Intermediates.get? r = some files →
          lookup (r : Int) m2.TaskMeta =
            some { TaskStatus := MasterTaskStatus.Idle, StartTime := zeroTime,
                   TaskReference :=
                     { Input := "", TaskState := State.Reduce, NReducer := m.NReduce,
                       TaskNumber := (r : Int), Intermediates := files, Output := "" } } ∧
          added.get? r =
            some { Input := "", TaskState := State.Reduce, NReducer := m.NReduce,
                   TaskNumber := (r : Int), Intermediates := files, Output := "" }) ∧
        m2.QueueCap = m.QueueCap ∧ m2.NReduce = m.NReduce ∧ m2.InputFiles = m.InputFiles) ∧
    (t.TaskState = State.Reduce →
      processTaskResult m t = .ok { m with MasterPhase := State.Exit }) := by
  constructor
  · intro hmap hk hslots hroom
    obtain ⟨slots, hc, hlen, -, -⟩ := collect_spec t.Intermediates 0 m.Intermediates
      (by omega)
    have hlen2 : slots.length = m.NReduce.toNat := hlen.trans hslots
    refine ⟨_, reduceTasks m.NReduce 0 slots,
      processTaskResult_build_eq m t slots hmap hc hdone (by omega), rfl, ?_, ?_, rfl, ?_,
      hlen2, ?_, rfl, rfl, rfl⟩
    · simp [ledgerOf, reduceTasks_length, hlen2]
    · simp only
      rw [keys_ledgerOf_reduceTasks, ← List.range_eq_range', hlen2]
    · rw [reduceTasks_length, hlen2]
    · intro r files hr
      have h1 := lookup_ledgerOf_reduceTasks m.NReduce slots 0 r files hr
      have h2 := reduceTasks_get? m.NReduce slots 0 r files hr
      simp only [Nat.zero_add] at h1 h2
      exact ⟨h1, h2⟩
  · intro hred
    unfold processTaskResult
    rw [hred]
    simp only [hdone, if_true]

/-- Instances of C12: the last Map report in `sampleAllDone` and the last
Reduce report in `sampleReduceDone`. -/
theorem processTaskResult_transition_witness :
    (∃ m2 added, processTaskResult sampleAllDone reportA = .ok m2 ∧
        m2.MasterPhase = State.Reduce ∧
        m2.TaskMeta.length = sampleAllDone.NReduce.toNat ∧
        keys m2.TaskMeta
          = (List.range sampleAllDone.NReduce.toNat).map (fun i : Nat => (i : Int)) ∧
        m2.TaskQueue = sampleAllDone.TaskQueue ++ added ∧
        added.length = sampleAllDone.NReduce.toNat ∧
        m2.Intermediates.length = sampleAllDone.NReduce.toNat ∧
        (∀ (r : Nat) (files : List String), m2.Intermediates.get? r = some files →
          lookup (r : Int) m2.TaskMeta =
            some { TaskStatus := MasterTaskStatus.Idle, StartTime := zeroTime,
                   TaskReference :=
                     { Input := "", TaskState := State.Reduce,
                       NReducer := sampleAllDone.NReduce,
                       TaskNumber := (r : Int), Intermediates := files, Output := "" } } ∧
          added.get? r =
            some { Input := "", TaskState := State.Reduce, NReducer := sampleAllDone.NReduce,
                   TaskNumber := (r : Int), Intermediates := files, Output := "" }) ∧
        m2.QueueCap = sampleAllDone.QueueCap ∧ m2.NReduce = sampleAllDone.NReduce ∧
        m2.InputFiles = sampleAllDone.InputFiles) ∧
    processTaskResult sampleReduceDone (reduceTask 1 0 ["/w/mr-0-0"])
      = .ok { sampleReduceDone with MasterPhase := State.Exit } :=
  ⟨(processTaskResult_transition sampleAllDone reportA (by decide)).1
      (by decide) (by decide) (by decide) (by decide),
   (processTaskResult_transition sampleReduceDone (reduceTask 1 0 ["/w/mr-0-0"])
      (by decide)).2 (by decide)⟩

/-- C11 fails on the code as stated: in `sampleLast` (Map phase, one slot, the
only Map task handed out) the report `reportA` with one location is accepted,
and after the `processTaskResult` it spawns the ledger entry keyed by its
`TaskNumber` is not `Completed`: the ledger has been replaced and the entry is
the `Idle` entry of Reduce task 0. -/
theorem last_map_report_entry_replaced :
    sampleLast.MasterPhase = State.Map ∧ reportA.TaskState = State.Map ∧
    statusAt sampleLast reportA.TaskNumber = some MasterTaskStatus.InProgress ∧
    reportA.Intermediates.length ≤ sampleLast.NReduce.toNat ∧
    ∃ m1 m2, TaskCompleted sampleLast reportA = .ok (m1, some reportA) ∧
      processTaskResult m1 reportA = .ok m2 ∧
      statusAt m2 reportA.TaskNumber = some MasterTaskStatus.Idle ∧
      statusAt m2 reportA.TaskNumber ≠ some MasterTaskStatus.Completed := by
  refine ⟨by decide, by decide, by decide, by decide, sampleAllDone,
    { sampleAllDone with
      TaskQueue := [reduceTask 1 0 ["/w/mr-0-0"]],
      TaskMeta := ledgerOf [reduceTask 1 0 ["/w/mr-0-0"]],
      MasterPhase := State.Reduce,
      Intermediates := [["/w/mr-0-0"]] }, ?_, ?_, ?_, ?_⟩
  · rfl
  · rfl
  · decide
  · decide

/-- C11 (amended): a report `t` for the current phase whose ledger entry
exists and is not `Completed` is accepted and its entry becomes `Completed`.
For a Map report of `k` locations, `k` at most the number of slots, the
spawned `processTaskResult` returns whenever some entry is not `Completed`
or the queue has room for the Reduce tasks; then for every `i < k` slot `i`
is its old value with `t.Intermediates[i]` appended, every slot `i >= k` is
unchanged, and the entry of `t.TaskNumber` is still `Completed` unless every
entry was `Completed` (then the ledger has been replaced).  For a Reduce
report the spawned `processTaskResult` returns and leaves the index
unchanged. -/
theorem TaskCompleted_then_process (m : Master) (t : Task) (e : MasterTask)
    (hphase : t.TaskState = m.MasterPhase)
    (hentry : lookup t.TaskNumber m.TaskMeta = some e)
    (hopen : e.TaskStatus ≠ MasterTaskStatus.Completed) :
    ∃ m1, TaskCompleted m t = .ok (m1, some t) ∧
      statusAt m1 t.TaskNumber = some MasterTaskStatus.Completed ∧
      (t.TaskState = State.Map →
        t.Intermediates.length ≤ m.Intermediates.length →
        (allTaskDone m1 = false ∨
          m.TaskQueue.length + m.Intermediates.length ≤ m.QueueCap) →
        ∃ m2, processTaskResult m1 t = .ok m2 ∧
          m2.Intermediates.length = m.Intermediates.length ∧
          (∀ (i : Nat) (x : String), t.Intermediates.get? i = some x →
            ∃ s, m.Intermediates.get? i = some s ∧
              m2.Intermediates.get? i = some (s ++ [x])) ∧
          (∀ i : Nat, t.Intermediates.length ≤ i →
            m2.Intermediates.get? i = m.Intermediates.get? i) ∧
          (allTaskDone m1 = false →
            statusAt m2 t.TaskNumber = some MasterTaskStatus.Completed)) ∧
      (t.TaskState = State.Reduce →
        ∃ m2, processTaskResult m1 t = .ok m2 ∧ m2.Intermediates = m.Intermediates) := by
  let e1 : MasterTask := { e with TaskStatus := MasterTaskStatus.Completed }
  have hst : statusAt { m with TaskMeta := store t.TaskNumber e1 m.TaskMeta } t.TaskNumber
      = some MasterTaskStatus.Completed := by
    simp [statusAt, lookup_store_self, e1]
  refine ⟨{ m with TaskMeta := store t.TaskNumber e1 m.TaskMeta }, ?_, hst, ?_, ?_⟩
  · simp [TaskCompleted, hphase, hentry, hopen, e1]
  · intro hmap hk hret
    obtain ⟨slots, hc, hlen, h3, h4⟩ := collect_spec t.Intermediates 0 m.Intermediates
      (by omega)
    have hslots : ∀ (i : Nat) (x : String), t.Intermediates.get? i = some x →
        ∃ s, m.Intermediates.get? i = some s ∧ slots.get? i = some (s ++ [x]) := by
      intro i x hx
      obtain ⟨s, hs1, hs2⟩ := h3 i x hx
      simp only [Nat.zero_add] at hs1 hs2
      exact ⟨s, hs1, hs2⟩
    have hrest : ∀ i : Nat, t.Intermediates.length ≤ i →
        slots.get? i = m.Intermediates.get? i := by
      intro i hi
      exact h4 i (Or.inr (by omega))
    cases hd : allTaskDone { m with TaskMeta := store t.TaskNumber e1 m.TaskMeta } with
    | false =>
      refine ⟨{ m with TaskMeta := store t.TaskNumber e1 m.TaskMeta, Intermediates := slots },
        ?_, hlen, hslots, hrest, fun _ => hst⟩
      have hd2 : allTaskDone
          { m with TaskMeta := store t.TaskNumber e1 m.TaskMeta, Intermediates := slots }
          = false := hd
      unfold processTaskResult
      rw [hmap]
      simp only [hc, hd2, Bool.false_eq_true, if_false]
    | true =>
      have hroom : m.TaskQueue.length + m.Intermediates.length ≤ m.QueueCap := by
        rcases hret with h | h
        · rw [hd] at h
          cases h
        · exact h
      refine ⟨_, processTaskResult_build_eq _ t slots hmap hc hd (by simpa [hlen] using hroom),
        hlen, hslots, hrest, ?_⟩
      intro h
      cases h
  · intro hred
    unfold processTaskResult
    rw [hred]
    simp only
    split
    · exact ⟨_, rfl, rfl⟩
    · exact ⟨_, rfl, rfl⟩

/-- Instance of C11 (amended): the report of task 0 in `sampleMap`, where task
1 is still `Idle`. -/
theorem TaskCompleted_then_process_witness :
    ∃ m1, TaskCompleted sampleMap reportA = .ok (m1, some reportA) ∧
      statusAt m1 reportA.TaskNumber = some MasterTaskStatus.Completed ∧
      (reportA.TaskState = State.Map →
        reportA.Intermediates.length ≤ sampleMap.Intermediates.length →
        (allTaskDone m1 = false ∨
          sampleMap.TaskQueue.length + sampleMap.Intermediates.length ≤ sampleMap.QueueCap) →
        ∃ m2, processTaskResult m1 reportA = .ok m2 ∧
          m2.Intermediates.length = sampleMap.Intermediates.length ∧
          (∀ (i : Nat) (x : String), reportA.Intermediates.get? i = some x →
            ∃ s, sampleMap.Intermediates.get? i = some s ∧
              m2.Intermediates.get? i = some (s ++ [x])) ∧
          (∀ i : Nat, reportA.Intermediates.length ≤ i →
            m2.Intermediates.get? i = sampleMap.Intermediates.get? i) ∧
          (allTaskDone m1 = false →
            statusAt m2 reportA.TaskNumber = some MasterTaskStatus.Completed)) ∧
      (reportA.TaskState = State.Reduce →
        ∃ m2, processTaskResult m1 reportA = .ok m2 ∧
          m2.Intermediates = sampleMap.Intermediates) :=
  TaskCompleted_then_process sampleMap reportA
    { TaskStatus := MasterTaskStatus.InProgress, StartTime := 0,
      TaskReference := mapTask "a" 1 0 }
    (by decide) (by decide) (by decide)

/-! ## The timeout scan -/

theorem requeuedTasks_store (now : Int) (ledger : List (Int × MasterTask)) (k : Int)
    (v : MasterTask) (ks : List Int) (hk : k ∉ ks) :
    requeuedTasks now (store k v ledger) ks = requeuedTasks now ledger ks := by
  unfold requeuedTasks
  apply List.filterMap_congr
  intro j hj
  have hne : j ≠ k := fun h => hk (h ▸ hj)
  rw [lookup_store_ne _ _ _ _ hne]

theorem scanLoop_eq (now : Int) (order : List Int) :
    ∀ m : Master, order.Nodup →
      m.TaskQueue.length + (requeuedTasks now m.TaskMeta order).length ≤ m.QueueCap →
      ∃ m1, scanLoop now order m = .ok m1 ∧
        m1.TaskQueue = m.TaskQueue ++ requeuedTasks now m.TaskMeta order ∧
        (∀ k, lookup k m1.TaskMeta =
          if k ∈ order then
            (lookup k m.TaskMeta).map (fun e => if timedOut now e then resetEntry e else e)
          else lookup k m.TaskMeta) ∧
        keys m1.TaskMeta = keys m.TaskMeta ∧
        m1.MasterPhase = m.MasterPhase ∧ m1.Intermediates = m.Intermediates ∧
        m1.QueueCap = m.QueueCap ∧ m1.NReduce = m.NReduce ∧
        m1.InputFiles = m.InputFiles := by
  induction order with
  | nil =>
    intro m _ _
    exact ⟨m, rfl, by simp [requeuedTasks], by simp, rfl, rfl, rfl, rfl, rfl, rfl⟩
  | cons k ks ih =>
    intro m hnd hroom
    obtain ⟨hk, hks⟩ := List.nodup_cons.mp hnd
    cases hl : lookup k m.TaskMeta with
    | none =>
      have hreq : requeuedTasks now m.TaskMeta (k :: ks) = requeuedTasks now m.TaskMeta ks := by
        simp [requeuedTasks, hl]
      rw [hreq] at hroom
      obtain ⟨m1, h1, h2, h3, h4, h5, h6, h7, h8, h9⟩ := ih m hks hroom
      refine ⟨m1, ?_, ?_, ?_, h4, h5, h6, h7, h8, h9⟩
      · simp only [scanLoop, scanEntry, hl]
        exact h1
      · rw [h2, hreq]
      · intro j
        rw [h3 j]
        by_cases hj : j = k
        · subst hj
          simp [hk, hl]
        · simp [hj]
    | some e =>
      cases ht : timedOut now e with
      | false =>
        have hcond : ¬ (e.TaskStatus = MasterTaskStatus.InProgress
            ∧ now - e.StartTime > 30 * second) := by
          simpa [timedOut] using ht
        have hreq : requeuedTasks now m.TaskMeta (k :: ks)
            = requeuedTasks now m.TaskMeta ks := by
          simp [requeuedTasks, hl, ht]
        rw [hreq] at hroom
        obtain ⟨m1, h1, h2, h3, h4, h5, h6, h7, h8, h9⟩ := ih m hks hroom
        refine ⟨m1, ?_, ?_, ?_, h4, h5, h6, h7, h8, h9⟩
        · simp only [scanLoop, scanEntry, hl, hcond, if_false]
          exact h1
        · rw [h2, hreq]
        · intro j
          rw [h3 j]
          by_cases hj : j = k
          · subst hj
            simp [hk, hl, ht]
          · simp [hj]
      | true =>
        have hcond : e.TaskStatus = MasterTaskStatus.InProgress
            ∧ now - e.StartTime > 30 * second := by
          simpa [timedOut] using ht
        have hreq : requeuedTasks now m.TaskMeta (k :: ks)
            = e.TaskReference :: requeuedTasks now m.TaskMeta ks := by
          simp [requeuedTasks, hl, ht]
        rw [hreq] at hroom
        simp only [List.length_cons] at hroom
        have hlt : m.TaskQueue.length < m.QueueCap := by omega
        let m0 : Master :=
          { m with TaskQueue := m.TaskQueue ++ [e.TaskReference],
                   TaskMeta := store k (resetEntry e) m.TaskMeta }
        have hreq0 : requeuedTasks now m0.TaskMeta ks = requeuedTasks now m.TaskMeta ks :=
          requeuedTasks_store now m.TaskMeta k (resetEntry e) ks hk
        obtain ⟨m1, h1, h2, h3, h4, h5, h6, h7, h8, h9⟩ := ih m0 hks (by
          rw [hreq0]
          simp only [m0, List.length_append, List.length_singleton]
          omega)
        refine ⟨m1, ?_, ?_, ?_, ?_, h5, h6, h7, h8, h9⟩
        · simp only [scanLoop, scanEntry, hl, hcond, and_self, if_true, send, hlt]
          exact h1
        · rw [h2, hreq0, hreq]
          simp [m0]
        · intro j
          rw [h3 j]
          by_cases hj : j = k
          · subst hj
            simp [hk, hl, ht, m0, lookup_store_self]
          · simp [hj, m0, lookup_store_ne _ _ _ _ hj]
        · rw [h4]
          exact keys_store_of_lookup _ _ _ _ hl

theorem requeuedTasks_keys (now : Int) (ledger : List (Int × MasterTask))
    (hnd : (keys ledger).Nodup) :
    requeuedTasks now ledger (keys ledger)
      = (ledger.filter (fun x => timedOut now x.2)).map (fun x => x.2.TaskReference) := by
  induction ledger with
  | nil => rfl
  | cons x rest ih =>
    obtain ⟨k, e⟩ := x
    simp only [keys, List.map_cons, List.nodup_cons] at hnd
    obtain ⟨hk, hrest⟩ := hnd
    have hk2 : k ∉ keys rest := hk
    have htail : requeuedTasks now ((k, e) :: rest) (keys rest)
        = requeuedTasks now rest (keys rest) := by
      unfold requeuedTasks
      apply List.filterMap_congr
      intro j hj
      have hne : ¬ k = j := fun h => hk2 (h ▸ hj)
      simp [lookup, hne]
    have hhead : requeuedTasks now ((k, e) :: rest) (keys ((k, e) :: rest))
        = (if timedOut now e then [e.TaskReference] else [])
          ++ requeuedTasks now ((k, e) :: rest) (keys rest) := by
      cases ht : timedOut now e <;> simp [requeuedTasks, keys, lookup, ht]
    rw [hhead, htail, ih hrest]
    cases ht : timedOut now e <;> simp [List.filter, ht]

theorem lookup_of_mem (ledger : List (Int × MasterTask)) (hnd : (keys ledger).Nodup)
    (k : Int) (e : MasterTask) (h : (k, e) ∈ ledger) : lookup k ledger = some e := by
  induction ledger with
  | nil => simp at h
  | cons x rest ih =>
    obtain ⟨k1, e1⟩ := x
    simp only [keys, List.map_cons, List.nodup_cons] at hnd
    rcases List.mem_cons.mp h with h | h
    · simp only [Prod.mk.injEq] at h
      simp [lookup, h.1, h.2]
    · have hne : ¬ k1 = k := by
        intro hh
        apply hnd.1
        rw [hh]
        exact List.mem_map.mpr ⟨(k, e), h, rfl⟩
      simp only [lookup, hne, if_false]
      exact ih hnd.2 h

theorem mem_keys_of_lookup (ledger : List (Int × MasterTask)) (k : Int) (e : MasterTask)
    (h : lookup k ledger = some e) : k ∈ keys ledger := by
  by_contra hk
  rw [lookup_eq_none_of_not_mem_keys k ledger hk] at h
  cases h

/-- C13: one round of `catchTimeOut` at instant `now`, visiting the ledger keys
in any order.  When `MasterPhase` is not `Exit` and the queue has room for the
timed-out tasks, the round returns and the loop goes on; every entry that is
`InProgress` with `now - StartTime > 30 s` becomes `Idle` (nothing else of it
changes), every other entry is unchanged, the queue is the previous queue
followed by the tasks of the timed-out entries, each exactly once (in visiting
order), and the set of keys, `MasterPhase`, `Intermediates` and the other
fields are unchanged.  When `MasterPhase` is `Exit` the round changes nothing
and `catchTimeOut` returns. -/
theorem catchTimeOut_round (m : Master) (now : Int) (order : List Int)
    (hnd : (keys m.TaskMeta).Nodup) (hperm : order.Perm (keys m.TaskMeta)) :
    (m.MasterPhase ≠ State.Exit →
      m.TaskQueue.length + (m.TaskMeta.filter (fun x => timedOut now x.2)).length
        ≤ m.QueueCap →
      ∃ m1 added, catchTimeOut m now order = .ok (m1, true) ∧
        m1.TaskQueue = m.TaskQueue ++ added ∧
        added = requeuedTasks now m.TaskMeta order ∧
        added.Perm
          ((m.TaskMeta.filter (fun x => timedOut now x.2)).map
            (fun x => x.2.TaskReference)) ∧
        (∀ k e, lookup k m.TaskMeta = some e →
          ((e.TaskStatus = MasterTaskStatus.InProgress ∧ now - e.StartTime > 30 * second) →
            lookup k m1.TaskMeta =
              some { TaskStatus := MasterTaskStatus.Idle, StartTime := e.StartTime,
                     TaskReference := e.TaskReference }) ∧
          (¬ (e.TaskStatus = MasterTaskStatus.InProgress
                ∧ now - e.StartTime > 30 * second) →
            lookup k m1.TaskMeta = some e)) ∧
        keys m1.TaskMeta = keys m.TaskMeta ∧
        m1.MasterPhase = m.MasterPhase ∧ m1.Intermediates = m.Intermediates ∧
        m1.QueueCap = m.QueueCap ∧ m1.NReduce = m.NReduce ∧
        m1.InputFiles = m.InputFiles) ∧
    (m.MasterPhase = State.Exit → catchTimeOut m now order = .ok (m, false)) := by
  constructor
  · intro hphase hroom
    have hpermReq : (requeuedTasks now m.TaskMeta order).Perm
        ((m.TaskMeta.filter (fun x => timedOut now x.2)).map
          (fun x => x.2.TaskReference)) := by
      rw [← requeuedTasks_keys now m.TaskMeta hnd]
      exact List.Perm.filterMap _ hperm
    have hlen : (requeuedTasks now m.TaskMeta order).length
        = (m.TaskMeta.filter (fun x => timedOut now x.2)).length := by
      rw [hpermReq.length_eq, List.length_map]
    obtain ⟨m1, h1, h2, h3, h4, h5, h6, h7, h8, h9⟩ :=
      scanLoop_eq now order m (hperm.nodup_iff.mpr hnd) (by omega)
    refine ⟨m1, requeuedTasks now m.TaskMeta order, ?_, h2, rfl, hpermReq, ?_,
      h4, h5, h6, h7, h8, h9⟩
    · simp only [catchTimeOut, hphase, if_false, h1]
    · intro k e he
      have hk : k ∈ order := hperm.mem_iff.mpr (mem_keys_of_lookup _ _ _ he)
      have hlook := h3 k
      simp only [hk, if_true, he, Option.map_some'] at hlook
      constructor
      · intro hc
        have ht : timedOut now e = true := by simpa [timedOut] using hc
        rw [hlook, ht]
        rfl
      · intro hc
        have ht : timedOut now e = false := by simpa [timedOut] using hc
        rw [hlook, ht]
        rfl
  · intro hphase
    simp [catchTimeOut, hphase]

/-- Instances of C13: the scan of `sampleMap` at 35 s, visiting key 1 before
key 0, and the scan of a state in phase `Exit`. -/
theorem catchTimeOut_round_witness :
    (∃ m1 added, catchTimeOut sampleMap 35000000000 [1, 0] = .ok (m1, true) ∧
        m1.TaskQueue = sampleMap.TaskQueue ++ added ∧
        added = requeuedTasks 35000000000 sampleMap.TaskMeta [1, 0] ∧
        added.Perm
          ((sampleMap.TaskMeta.filter (fun x => timedOut 35000000000 x.2)).map
            (fun x => x.2.TaskReference)) ∧
        (∀ k e, lookup k sampleMap.TaskMeta = some e →
          ((e.TaskStatus = MasterTaskStatus.InProgress
              ∧ 35000000000 - e.StartTime > 30 * second) →
            lookup k m1.TaskMeta =
              some { TaskStatus := MasterTaskStatus.Idle, StartTime := e.StartTime,
                     TaskReference := e.TaskReference }) ∧
          (¬ (e.TaskStatus = MasterTaskStatus.InProgress
                ∧ 35000000000 - e.StartTime > 30 * second) →
            lookup k m1.TaskMeta = some e)) ∧
        keys m1.TaskMeta = keys sampleMap.TaskMeta ∧
        m1.MasterPhase = sampleMap.MasterPhase ∧
        m1.Intermediates = sampleMap.Intermediates ∧
        m1.QueueCap = sampleMap.QueueCap ∧ m1.NReduce = sampleMap.NReduce ∧
        m1.InputFiles = sampleMap.InputFiles) ∧
    catchTimeOut { sampleReduce with MasterPhase := State.Exit } 35000000000 [0]
      = .ok ({ sampleReduce with MasterPhase := State.Exit }, false) :=
  ⟨(catchTimeOut_round sampleMap 35000000000 [1, 0] (by decide) (by decide)).1
      (by decide) (by decide),
   (catchTimeOut_round { sampleReduce with MasterPhase := State.Exit } 35000000000 [0]
      (by decide) (by decide)).2 (by decide)⟩

/-! ## Defects of the phase changes and of the queue -/

theorem faultOf_eq_some {α : Type} {x : Except Fault α} {e : Fault}
    (h : faultOf x = some e) : x = .error e := by
  cases x with
  | error e1 =>
    simp only [faultOf, Option.some.injEq] at h
    rw [h]
  | ok a => simp [faultOf] at h

/-- C17 fails on the code: with files `a`, `b` and one reduce partition, the
execution `traceLateFold` ends with `MasterPhase = Exit` (`Done` returns
true) while the `processTaskResult` goroutine of Map task 0 is still pending;
when it runs it finds every entry of the Reduce ledger `Completed`, calls
`createReduceTask` again and sets `MasterPhase` back to `Reduce`, so `Done`
returns false again. -/
theorem phase_moves_back_from_exit :
    ∃ s s1, HonestReachable ["a", "b"] 1 s ∧
      s.m.MasterPhase = State.Exit ∧ Done s.m = true ∧
      s.pending = [reportA] ∧
      enabled s (Event.process 0) = true ∧
      step s (Event.process 0) = .ok s1 ∧
      s1.m.MasterPhase = State.Reduce ∧ Done s1.m = false := by
  have h : (execFrom ["a", "b"] 1 traceLateFold).map
      (fun s => (s.m.MasterPhase, Done s.m, s.pending, enabled s (Event.process 0),
        (step s (Event.process 0)).toOption.map (fun s1 => (s1.m.MasterPhase, Done s1.m))))
      = some (State.Exit, true, [reportA], true, some (State.Reduce, false)) := by
    rfl
  obtain ⟨s, hs, hv⟩ := Option.map_eq_some'.mp h
  simp only [Prod.mk.injEq] at hv
  obtain ⟨h1, h2, h3, h4, h5⟩ := hv
  obtain ⟨s1, hs1, hv1⟩ := Option.map_eq_some'.mp h5
  simp only [Prod.mk.injEq] at hv1
  cases hst : step s (Event.process 0) with
  | error x => simp [hst, Except.toOption] at hs1
  | ok s2 =>
    simp only [hst, Except.toOption, Option.some.injEq] at hs1
    subst hs1
    exact ⟨s, s2, execFrom_honestReachable hs, h1, h2, h3, h4, hst, hv1.1, hv1.2⟩

/-- C18 fails on the code: with file `a` and one reduce partition (capacity 1),
the execution `traceFullQueue` reaches a state whose queue is full (it holds
the requeued Map task 0) while the accepted report of that task is pending;
the pending `processTaskResult` finds every entry `Completed` and the send of
`createReduceTask` finds no free slot: it blocks while `mu` is held. -/
theorem createReduceTask_send_blocks :
    ∃ s, HonestReachable ["a"] 1 s ∧
      s.m.QueueCap = 1 ∧ s.m.TaskQueue = [mapTask "a" 1 0] ∧
      s.pending = [reportA] ∧
      enabled s (Event.process 0) = true ∧
      processTaskResult s.m reportA = .error Fault.blocked ∧
      step s (Event.process 0) = .error Fault.blocked := by
  have h : (execFrom ["a"] 1 traceFullQueue).map
      (fun s => (s.m.QueueCap, s.m.TaskQueue, s.pending, enabled s (Event.process 0),
        faultOf (processTaskResult s.m reportA),
        faultOf (step s (Event.process 0))))
      = some (1, [mapTask "a" 1 0], [reportA], true, some Fault.blocked,
          some Fault.blocked) := by
    rfl
  obtain ⟨s, hs, hv⟩ := Option.map_eq_some'.mp h
  simp only [Prod.mk.injEq] at hv
  obtain ⟨h1, h2, h3, h4, h5, h6⟩ := hv
  exact ⟨s, execFrom_honestReachable hs, h1, h2, h3, h4, faultOf_eq_some h5,
    faultOf_eq_some h6⟩

/-- C19 fails on the code: with files `a`, `b` and one reduce partition, the
execution `traceStaleKey` reaches a state in the Reduce phase whose queue
still holds Map task 1 (`TaskState = Map`, not the phase) in front of Reduce
task 0, while the ledger has an entry for key 0 only; `AssignTask` pops Map
task 1, `m.TaskMeta[1]` is nil and the write through it panics. -/
theorem assign_stale_task_nil_entry :
    ∃ s, HonestReachable ["a", "b"] 1 s ∧
      s.m.MasterPhase = State.Reduce ∧
      s.m.TaskQueue = [mapTask "b" 1 1, reduceTask 1 0 ["/w/mr-0-0", "/w/mr-1-0"]] ∧
      keys s.m.TaskMeta = [0] ∧
      lookup 1 s.m.TaskMeta = none ∧
      AssignTask s.m s.now = .error Fault.nilDeref ∧
      step s Event.assign = .error Fault.nilDeref := by
  have h : (execFrom ["a", "b"] 1 traceStaleKey).map
      (fun s => (s.m.MasterPhase, s.m.TaskQueue, keys s.m.TaskMeta, lookup 1 s.m.TaskMeta,
        faultOf (AssignTask s.m s.now),
        faultOf (step s Event.assign)))
      = some (State.Reduce,
          [mapTask "b" 1 1, reduceTask 1 0 ["/w/mr-0-0", "/w/mr-1-0"]], [0], none,
          some Fault.nilDeref, some Fault.nilDeref) := by
    rfl
  obtain ⟨s, hs, hv⟩ := Option.map_eq_some'.mp h
  simp only [Prod.mk.injEq] at hv
  obtain ⟨h1, h2, h3, h4, h5, h6⟩ := hv
  exact ⟨s, execFrom_honestReachable hs, h1, h2, h3, h4, faultOf_eq_some h5,
    faultOf_eq_some h6⟩

/-! ## The worker: `ihash` and `mapper` -/

theorem fnv32a_lt (bs : List UInt8) : fnv32a bs < 2 ^ 32 := by
  unfold fnv32a
  have key : ∀ (l : List UInt8) (h : Nat), h < 2 ^ 32 →
      l.foldl (fun h b => ((h ^^^ b.toNat) * fnvPrime32) % 2 ^ 32) h < 2 ^ 32 := by
    intro l
    induction l with
    | nil => intro h hh; exact hh
    | cons b rest ih =>
      intro h _
      simp only [List.foldl_cons]
      exact ih _ (Nat.mod_lt _ (by norm_num))
  exact key bs fnvOffset32 (by norm_num [fnvOffset32])

theorem fnv32a_snoc (bs : List UInt8) (b : UInt8) :
    fnv32a (bs ++ [b]) = ((fnv32a bs ^^^ b.toNat) * 16777619) % 4294967296 := by
  simp [fnv32a, List.foldl_append, fnvPrime32]

theorem ihash_eq_mod (key : List UInt8) :
    ihash key = ((fnv32a key % 2 ^ 31 : Nat) : Int) := by
  unfold ihash
  have h : (0x7fffffff : Nat) = 2 ^ 31 - 1 := by norm_num
  rw [h, Nat.and_pow_two_sub_one_eq_mod]

theorem ihash_nonneg (key : List UInt8) : 0 ≤ ihash key := by
  rw [ihash_eq_mod]
  exact Int.ofNat_nonneg _

theorem ihash_lt (key : List UInt8) : ihash key < 2 ^ 31 := by
  rw [ihash_eq_mod]
  have h : fnv32a key % 2 ^ 31 < 2 ^ 31 := Nat.mod_lt _ (by norm_num)
  exact_mod_cast h

theorem bucket_range (key : List UInt8) (n : Int) (hn : 0 < n) :
    Int.tmod (ihash key) n = ihash key % n ∧
      0 ≤ Int.tmod (ihash key) n ∧ Int.tmod (ihash key) n < n ∧
      (Int.tmod (ihash key) n).toNat < n.toNat := by
  have h1 : Int.tmod (ihash key) n = ihash key % n :=
    Int.tmod_eq_emod (ihash_nonneg key) (le_of_lt hn)
  have h2 : 0 ≤ ihash key % n := Int.emod_nonneg _ (ne_of_gt hn)
  have h3 : ihash key % n < n := Int.emod_lt_of_pos _ hn
  refine ⟨h1, by rw [h1]; exact h2, by rw [h1]; exact h3, ?_⟩
  rw [h1]
  omega

theorem jsonStringFrom_of_valid (s : List UInt8) :
    ∀ k : Nat, validFrom k s = true → jsonStringFrom k s = s := by
  induction s with
  | nil =>
    intro k _
    cases k <;> rfl
  | cons b rest ih =>
    intro k hv
    cases k with
    | succ k =>
      simp only [validFrom] at hv
      simp only [jsonStringFrom, ih k hv]
    | zero =>
      simp only [validFrom] at hv
      simp only [jsonStringFrom]
      cases hr : runeLen (b :: rest) with
      | zero => simp [hr] at hv
      | succ n =>
        simp only [hr] at hv
        simp only [ih n hv]

theorem jsonPair_of_valid (kv : KeyValueBytes) (hk : validUTF8 kv.Key = true)
    (hv : validUTF8 kv.Value = true) : jsonPair kv = kv := by
  unfold jsonPair jsonString
  rw [jsonStringFrom_of_valid _ 0 hk, jsonStringFrom_of_valid _ 0 hv]

theorem encodeAll_spec (n : Int) (hn : 0 < n) (kva : List KeyValueBytes) :
    ∀ encoders : List (List KeyValueBytes), encoders.length = n.toNat →
      ∃ out, encodeAll n kva encoders = .ok out ∧ out.length = n.toNat ∧
        ∀ r : Nat, r < n.toNat →
          out.get? r = (encoders.get? r).map (fun file =>
            file ++ (kva.filter (fun kv =>
              decide (Int.tmod (ihash kv.Key) n = (r : Int)))).map jsonPair) := by
  induction kva with
  | nil =>
    intro encoders hlen
    refine ⟨encoders, rfl, hlen, ?_⟩
    intro r _
    cases encoders.get? r <;> simp
  | cons kv rest ih =>
    intro encoders hlen
    obtain ⟨-, h0, -, hlt⟩ := bucket_range kv.Key n hn
    have hidx : (Int.tmod (ihash kv.Key) n).toNat < encoders.length := by
      rw [hlen]
      exact hlt
    obtain ⟨file, hfile⟩ : ∃ file, encoders.get? (Int.tmod (ihash kv.Key) n).toNat = some file :=
      ⟨encoders.get ⟨_, hidx⟩, List.get?_eq_get hidx⟩
    obtain ⟨out, h1, h2, h3⟩ :=
      ih (encoders.set (Int.tmod (ihash kv.Key) n).toNat (file ++ [jsonPair kv]))
        (by rw [List.length_set]; exact hlen)
    refine ⟨out, ?_, h2, ?_⟩
    · have hne : ¬ n = 0 := ne_of_gt hn
      have hnn : ¬ Int.tmod (ihash kv.Key) n < 0 := not_lt.mpr h0
      simp only [encodeAll, hne, if_false, hnn, hfile]
      exact h1
    · intro r hr
      rw [h3 r hr]
      by_cases hrr : (Int.tmod (ihash kv.Key) n).toNat = r
      · have hkv : Int.tmod (ihash kv.Key) n = (r : Int) := by omega
        rw [hrr] at hidx hfile
        simp only [List.get?_eq_getElem?] at hfile ⊢
        rw [hrr, List.getElem?_set_self hidx, hfile]
        simp [List.filter_cons, hkv]
      · have hkv : ¬ Int.tmod (ihash kv.Key) n = (r : Int) := by omega
        simp only [List.get?_eq_getElem?]
        rw [List.getElem?_set_ne hrr]
        simp [List.filter_cons, hkv]

theorem mapper_eq (task : Task) (kva : List KeyValueBytes) (dir : String)
    (hn : 0 < task.NReducer) :
    mapper task kva dir =
      .ok ((List.range task.NReducer.toNat).map (fun r =>
              (outputName task.TaskNumber r,
               (kva.filter (fun kv =>
                 decide (Int.tmod (ihash kv.Key) task.NReducer = (r : Int)))).map jsonPair)),
           { task with Intermediates :=
               (List.range task.NReducer.toNat).map (fun r =>
                 joinPath dir (outputName task.TaskNumber r)) }) := by
  obtain ⟨out, h1, -, h3⟩ := encodeAll_spec task.NReducer hn kva
    (List.replicate task.NReducer.toNat []) (by simp)
  unfold mapper
  simp only [h1]
  congr 2
  apply List.map_congr_left
  intro r hr
  have hr2 : r < task.NReducer.toNat := List.mem_range.mp hr
  rw [h3 r hr2]
  simp [List.get?_eq_getElem?, List.getElem?_replicate, hr2]

/-- C15 fails on the code as stated: a key returned by the map function may
hold bytes that are not valid UTF-8, and `json.Encoder` replaces each such
byte by U+FFFD.  With one reduce partition and the single pair whose key is
the byte `0xFF`, the published file `mr-0-0` holds a record whose key is the
three bytes of U+FFFD: it does not hold the pair of `kva`. -/
theorem mapper_writes_coerced_key :
    mapper (mapTask "a" 1 0) [{ Key := [0xFF], Value := [0x31] }] "/w" =
      .ok ([("mr-0-0", [{ Key := [0xEF, 0xBF, 0xBD], Value := [0x31] }])],
           { mapTask "a" 1 0 with Intermediates := ["/w/mr-0-0"] }) ∧
    ([{ Key := [0xEF, 0xBF, 0xBD], Value := [0x31] }] : List KeyValueBytes)
      ≠ ([{ Key := [0xFF], Value := [0x31] }] : List KeyValueBytes).filter
          (fun kv => decide (Int.tmod (ihash kv.Key) 1 = 0)) := by
  constructor
  · rfl
  · decide

/-- C15 (amended): for `NReducer > 0` and every sequence `kva` returned by the
map function, `mapper` publishes `NReducer` files; file `r` is named
`mr-<TaskNumber>-<r>` and holds, in their order in `kva`, the records that
`json.Encoder` writes for exactly the pairs whose key `k` satisfies
`ihash(k) % NReducer = r`: each string with every byte that is not part of a
valid UTF-8 sequence replaced by U+FFFD, hence the pair itself when its key
and value are valid UTF-8.  Every pair goes to the file of exactly one
`r < NReducer`, which depends on its key only; and the task reported to
`TaskCompleted` is the task received with `Intermediates` replaced by the
`NReducer` locations, the `r`-th being `filepath.Join` of the working
directory and the name of file `r`. -/
theorem mapper_partition (task : Task) (kva : List KeyValueBytes) (dir : String)
    (hn : 0 < task.NReducer) :
    mapper task kva dir =
      .ok ((List.range task.NReducer.toNat).map (fun r =>
              (outputName task.TaskNumber r,
               (kva.filter (fun kv =>
                 decide (Int.tmod (ihash kv.Key) task.NReducer = (r : Int)))).map jsonPair)),
           { Input := task.Input, TaskState := task.TaskState, NReducer := task.NReducer,
             TaskNumber := task.TaskNumber,
             Intermediates :=
               (List.range task.NReducer.toNat).map (fun r =>
                 joinPath dir (outputName task.TaskNumber r)),
             Output := task.Output }) ∧
    (∀ kv : KeyValueBytes, validUTF8 kv.Key = true → validUTF8 kv.Value = true →
      jsonPair kv = kv) ∧
    ((∀ kv ∈ kva, validUTF8 kv.Key = true ∧ validUTF8 kv.Value = true) →
      ∀ r : Nat,
        (kva.filter (fun kv =>
          decide (Int.tmod (ihash kv.Key) task.NReducer = (r : Int)))).map jsonPair
        = kva.filter (fun kv =>
          decide (Int.tmod (ihash kv.Key) task.NReducer = (r : Int)))) ∧
    (∀ kv ∈ kva, ∀ r : Nat,
      kv ∈ kva.filter (fun kv => decide (Int.tmod (ihash kv.Key) task.NReducer = (r : Int)))
        ↔ (Int.tmod (ihash kv.Key) task.NReducer).toNat = r) ∧
    (∀ kv ∈ kva, (Int.tmod (ihash kv.Key) task.NReducer).toNat < task.NReducer.toNat) ∧
    (∀ kv1 ∈ kva, ∀ kv2 ∈ kva, kv1.Key = kv2.Key →
      (Int.tmod (ihash kv1.Key) task.NReducer).toNat
        = (Int.tmod (ihash kv2.Key) task.NReducer).toNat) := by
  refine ⟨mapper_eq task kva dir hn, jsonPair_of_valid, ?_, ?_, ?_, ?_⟩
  · intro hvalid r
    have hid : ∀ kv ∈ kva.filter (fun kv =>
        decide (Int.tmod (ihash kv.Key) task.NReducer = (r : Int))), jsonPair kv = kv := by
      intro kv hkv
      obtain ⟨h1, h2⟩ := hvalid kv (List.mem_of_mem_filter hkv)
      exact jsonPair_of_valid kv h1 h2
    calc (kva.filter (fun kv =>
            decide (Int.tmod (ihash kv.Key) task.NReducer = (r : Int)))).map jsonPair
        = (kva.filter (fun kv =>
            decide (Int.tmod (ihash kv.Key) task.NReducer = (r : Int)))).map id :=
          List.map_congr_left hid
      _ = _ := List.map_id _
  · intro kv hkv r
    obtain ⟨-, h0, -, -⟩ := bucket_range kv.Key task.NReducer hn
    simp only [List.mem_filter, hkv, true_and, decide_eq_true_eq]
    omega
  · intro kv _
    exact (bucket_range kv.Key task.NReducer hn).2.2.2
  · intro kv1 _ kv2 _ hk
    rw [hk]

/-- Instance of C15 (amended): Map task 0 of scenario A of the specification,
with two reduce partitions and the pairs `(a,1)`, `(b,1)`, run by a worker
whose working directory is reported as `/tmp/./job`: the files hold the
pairs and the reported locations are the cleaned paths.  The other equations
are values of `utf8.Valid`, of the string written by `json.Encoder` and of
`filepath.Join`. -/
theorem mapper_partition_witness :
    mapper (mapTask "a" 2 0)
        [{ Key := utf8Bytes "a", Value := utf8Bytes "1" },
         { Key := utf8Bytes "b", Value := utf8Bytes "1" }] "/tmp/./job" =
      .ok ([("mr-0-0", [{ Key := [0x61], Value := [0x31] }]),
            ("mr-0-1", [{ Key := [0x62], Value := [0x31] }])],
           { mapTask "a" 2 0 with
             Intermediates := ["/tmp/job/mr-0-0", "/tmp/job/mr-0-1"] }) ∧
    validUTF8 (utf8Bytes "aé€😀") = true ∧
    jsonString (utf8Bytes "aé€😀") = utf8Bytes "aé€😀" ∧
    validUTF8 [0xFF] = false ∧ validUTF8 [0xC0, 0x80] = false ∧
    validUTF8 [0xED, 0xA0, 0x80] = false ∧ validUTF8 [0xE2, 0x82] = false ∧
    jsonString [0x61, 0xFF, 0x62] = [0x61, 0xEF, 0xBF, 0xBD, 0x62] ∧
    jsonString [0xE2, 0x82] = [0xEF, 0xBF, 0xBD, 0xEF, 0xBF, 0xBD] ∧
    joinPath "/tmp/./job" "mr-0-0" = "/tmp/job/mr-0-0" ∧
    joinPath "/w" "mr-0-1" = "/w/mr-0-1" ∧
    joinPath "/" "mr-0-0" = "/mr-0-0" ∧
    joinPath "/a/b/../c/" "mr-0-0" = "/a/c/mr-0-0" ∧
    joinPath "" "mr-0-0" = "mr-0-0" :=
  ⟨(mapper_partition (mapTask "a" 2 0)
      [{ Key := utf8Bytes "a", Value := utf8Bytes "1" },
       { Key := utf8Bytes "b", Value := utf8Bytes "1" }] "/tmp/./job" (by decide)).1,
   by decide, by decide, by decide, by decide, by decide, by decide, by decide, by decide,
   by decide, by decide, by decide, by decide, by decide⟩

/-- C20: `ihash(k)` is the 32-bit FNV-1a hash of the bytes of `k` (offset basis
`2166136261`; each byte is xor-ed into the state, which is then multiplied by
`16777619` modulo `2^32`) with the top bit cleared, that is the hash modulo
`2^31`, so `0 <= ihash(k) < 2^31`; for every `NReducer > 0` the remainder
`ihash(k) % NReducer` of Go is the mathematical one and lies in
`[0, NReducer)`, so it is a valid index of the `NReducer` encoders, and
`mapper` runs to its end without a fault. -/
theorem ihash_range (key : List UInt8) :
    fnv32a [] = 2166136261 ∧
    (∀ b : UInt8,
      fnv32a (key ++ [b]) = ((fnv32a key ^^^ b.toNat) * 16777619) % 4294967296) ∧
    fnv32a key < 4294967296 ∧
    ihash key = ((fnv32a key % 2147483648 : Nat) : Int) ∧
    ihash key =
      (if fnv32a key < 2147483648 then (fnv32a key : Int)
       else (fnv32a key : Int) - 2147483648) ∧
    0 ≤ ihash key ∧ ihash key < 2147483648 ∧
    (∀ n : Int, 0 < n →
      Int.tmod (ihash key) n = ihash key % n ∧
      0 ≤ Int.tmod (ihash key) n ∧ Int.tmod (ihash key) n < n ∧
      (Int.tmod (ihash key) n).toNat < n.toNat ∧
      ∀ (task : Task) (kva : List KeyValueBytes) (dir : String), task.NReducer = n →
        ∃ out, mapper task kva dir = .ok out) := by
  have hlt : fnv32a key < 4294967296 := fnv32a_lt key
  have hmod : ihash key = ((fnv32a key % 2147483648 : Nat) : Int) := ihash_eq_mod key
  refine ⟨rfl, fnv32a_snoc key, hlt, hmod, ?_, ihash_nonneg key, ?_, ?_⟩
  · rw [hmod]
    split
    · rename_i h
      rw [Nat.mod_eq_of_lt h]
    · rename_i h
      have h1 : fnv32a key % 2147483648 = fnv32a key - 2147483648 := by omega
      rw [h1]
      omega
  · have := ihash_lt key
    simpa using this
  · intro n hn
    obtain ⟨h1, h2, h3, h4⟩ := bucket_range key n hn
    refine ⟨h1, h2, h3, h4, ?_⟩
    intro task kva dir htask
    exact ⟨_, mapper_eq task kva dir (htask ▸ hn)⟩

/-- Instance of C20: the key `a` with two reduce partitions, and the values of
`ihash` on the empty key, on `a`, on `foobar`, on the two bytes of `é` and on
the byte `0xFF`. -/
theorem ihash_range_witness :
    (Int.tmod (ihash (utf8Bytes "a")) 2 = ihash (utf8Bytes "a") % 2 ∧
      0 ≤ Int.tmod (ihash (utf8Bytes "a")) 2 ∧ Int.tmod (ihash (utf8Bytes "a")) 2 < 2 ∧
      (Int.tmod (ihash (utf8Bytes "a")) 2).toNat < (2 : Int).toNat ∧
      ∀ (task : Task) (kva : List KeyValueBytes) (dir : String), task.NReducer = 2 →
        ∃ out, mapper task kva dir = .ok out) ∧
    fnv32a (utf8Bytes "a") = 3826002220 ∧
    fnv32a (utf8Bytes "foobar") = 3214735720 ∧
    ihash [] = 18652613 ∧
    ihash (utf8Bytes "a") = 1678518572 ∧
    ihash (utf8Bytes "foobar") = 1067252072 ∧
    utf8Bytes "é" = [0xC3, 0xA9] ∧
    ihash (utf8Bytes "é") = 513665217 ∧
    ihash [0xFF] = 2047574606 ∧
    Int.tmod (ihash (utf8Bytes "a")) 2 = 0 ∧
    Int.tmod (ihash (utf8Bytes "b")) 2 = 1 :=
  ⟨(ihash_range (utf8Bytes "a")).2.2.2.2.2.2.2 2 (by decide),
   by decide, by decide, by decide, by decide, by decide, by decide, by decide, by decide,
   by decide, by decide⟩

/-! ## The worker: `reducer` -/

theorem takeRun_spec (key : String) (rest : List KeyValue)
    (hsorted : rest.Pairwise (fun a b => a.Key ≤ b.Key))
    (hge : ∀ kv ∈ rest, key ≤ kv.Key) :
    (takeRun key rest).1 = (rest.filter (fun kv => decide (kv.Key = key))).map KeyValue.Value ∧
    (takeRun key rest).2.length ≤ rest.length ∧
    (takeRun key rest).2.Pairwise (fun a b => a.Key ≤ b.Key) ∧
    (∀ kv ∈ (takeRun key rest).2, key < kv.Key ∧ kv ∈ rest) ∧
    (∀ kv ∈ rest, kv.Key = key ∨ kv ∈ (takeRun key rest).2) ∧
    (∀ k, k ≠ key →
      (takeRun key rest).2.filter (fun kv => decide (kv.Key = k))
        = rest.filter (fun kv => decide (kv.Key = k))) := by
  induction rest with
  | nil => simp [takeRun]
  | cons kv rest ih =>
    obtain ⟨hhead, htail⟩ := List.pairwise_cons.mp hsorted
    by_cases hk : kv.Key = key
    · obtain ⟨h1, h2, h3, h4, h5, h6⟩ := ih htail (fun b hb => hge b (List.mem_cons_of_mem _ hb))
      simp only [takeRun, hk, if_true]
      refine ⟨?_, ?_, h3, ?_, ?_, ?_⟩
      · simp [List.filter_cons, hk, h1]
      · simp only [List.length_cons]
        omega
      · intro b hb
        exact ⟨(h4 b hb).1, List.mem_cons_of_mem _ (h4 b hb).2⟩
      · intro b hb
        rcases List.mem_cons.mp hb with hb | hb
        · left
          rw [hb, hk]
        · exact h5 b hb
      · intro k hkne
        have hkk : ¬ kv.Key = k := fun h => hkne (h ▸ hk)
        simp [List.filter_cons, hkk, h6 k hkne]
    · have hlt : key < kv.Key :=
        lt_of_le_of_ne (hge kv (List.mem_cons_self _ _)) (fun h => hk h.symm)
      simp only [takeRun, hk, if_false]
      refine ⟨?_, le_refl _, hsorted, ?_, ?_, fun _ _ => trivial⟩
      · have hnone : ∀ b ∈ kv :: rest, ¬ (decide (b.Key = key) = true) := by
          intro b hb
          simp only [decide_eq_true_eq]
          rcases List.mem_cons.mp hb with hb | hb
          · rw [hb]
            exact hk
          · exact fun h => absurd (h ▸ hhead b hb) (not_le.mpr hlt)
        rw [List.filter_eq_nil_iff.mpr hnone]
        rfl
      · intro b hb
        refine ⟨?_, hb⟩
        rcases List.mem_cons.mp hb with hb | hb
        · rw [hb]
          exact hlt
        · exact lt_of_lt_of_le hlt (hhead b hb)
      · intro b hb
        exact Or.inr hb

theorem reduceLoop_spec (reducef : String → List String → String) :
    ∀ (fuel : Nat) (l : List KeyValue), l.length ≤ fuel →
      l.Pairwise (fun a b => a.Key ≤ b.Key) →
      (∀ ln ∈ reduceLoop reducef fuel l,
        (∃ kv ∈ l, kv.Key = ln.1) ∧
        ln.2 = reducef ln.1
          ((l.filter (fun kv => decide (kv.Key = ln.1))).map KeyValue.Value)) ∧
      ((reduceLoop reducef fuel l).map Prod.fst).Pairwise (fun a b => a < b) ∧
      (∀ kv ∈ l, kv.Key ∈ (reduceLoop reducef fuel l).map Prod.fst) := by
  intro fuel
  induction fuel with
  | zero =>
    intro l hlen _
    have hl : l = [] := List.length_eq_zero.mp (Nat.le_zero.mp hlen)
    subst hl
    simp [reduceLoop]
  | succ fuel ih =>
    intro l hlen hsorted
    cases l with
    | nil => simp [reduceLoop]
    | cons kv rest =>
      obtain ⟨hhead, htail⟩ := List.pairwise_cons.mp hsorted
      obtain ⟨t1, t2, t3, t4, t5, t6⟩ := takeRun_spec kv.Key rest htail hhead
      simp only [List.length_cons] at hlen
      obtain ⟨i1, i2, i3⟩ := ih (takeRun kv.Key rest).2 (by omega) t3
      simp only [reduceLoop]
      refine ⟨?_, ?_, ?_⟩
      · intro ln hln
        rcases List.mem_cons.mp hln with hln | hln
        · subst hln
          refine ⟨⟨kv, List.mem_cons_self _ _, rfl⟩, ?_⟩
          simp [List.filter_cons, t1]
        · obtain ⟨⟨b, hb, hbk⟩, hval⟩ := i1 ln hln
          obtain ⟨hlt, hbrest⟩ := t4 b hb
          refine ⟨⟨b, List.mem_cons_of_mem _ hbrest, hbk⟩, ?_⟩
          have hne : ln.1 ≠ kv.Key := by
            rw [← hbk]
            exact ne_of_gt hlt
          have hne2 : ¬ kv.Key = ln.1 := fun h => hne h.symm
          rw [hval, t6 ln.1 hne]
          simp [List.filter_cons, hne2]
      · simp only [List.map_cons, List.pairwise_cons]
        refine ⟨?_, i2⟩
        intro k hk
        obtain ⟨ln, hln, hlnk⟩ := List.mem_map.mp hk
        obtain ⟨⟨b, hb, hbk⟩, -⟩ := i1 ln hln
        rw [← hlnk, ← hbk]
        exact (t4 b hb).1
      · intro b hb
        simp only [List.map_cons, List.mem_cons]
        rcases List.mem_cons.mp hb with hb | hb
        · left
          rw [hb]
        · rcases t5 b hb with h | h
          · exact Or.inl h
          · exact Or.inr (i3 b h)

/-- C16: let `sorted` be the pairs read by `reducer` as `sort.Sort` leaves them
(a permutation of the input in ascending key order).  The output file of
`reducer` is the concatenation of one line `key output` per round of its
loop; the keys of the lines are strictly ascending, they are exactly the
keys that occur in the input (one line per distinct key), and the output of
the line for key `k` is `reducef(k, vs)` where `vs` is a permutation of the
values of all input pairs with key `k` (so it has as many values as there
are such pairs). -/
theorem reducer_output (task : Task) (input sorted : List KeyValue)
    (reducef : String → List String → String)
    (hperm : sorted.Perm input)
    (hsorted : sorted.Pairwise (fun a b => a.Key ≤ b.Key)) :
    reducer task sorted reducef =
      ("mr-out-" ++ toString task.TaskNumber,
       String.join ((reduceLoop reducef sorted.length sorted).map
         (fun ln => ln.1 ++ " " ++ ln.2 ++ "\n"))) ∧
    ((reduceLoop reducef sorted.length sorted).map Prod.fst).Pairwise (fun a b => a < b) ∧
    (∀ k, k ∈ (reduceLoop reducef sorted.length sorted).map Prod.fst
      ↔ ∃ kv ∈ input, kv.Key = k) ∧
    (∀ ln ∈ reduceLoop reducef sorted.length sorted,
      ∃ vs, ln.2 = reducef ln.1 vs ∧
        vs.Perm ((input.filter (fun kv => decide (kv.Key = ln.1))).map KeyValue.Value) ∧
        vs.length = (input.filter (fun kv => decide (kv.Key = ln.1))).length) := by
  obtain ⟨h1, h2, h3⟩ := reduceLoop_spec reducef sorted.length sorted (le_refl _) hsorted
  refine ⟨rfl, h2, ?_, ?_⟩
  · intro k
    constructor
    · intro hk
      obtain ⟨ln, hln, hlnk⟩ := List.mem_map.mp hk
      obtain ⟨⟨kv, hkv, hkey⟩, -⟩ := h1 ln hln
      exact ⟨kv, hperm.mem_iff.mp hkv, hkey.trans hlnk⟩
    · rintro ⟨kv, hkv, hkey⟩
      rw [← hkey]
      exact h3 kv (hperm.mem_iff.mpr hkv)
  · intro ln hln
    obtain ⟨-, hval⟩ := h1 ln hln
    have hp : ((sorted.filter (fun kv => decide (kv.Key = ln.1))).map KeyValue.Value).Perm
        ((input.filter (fun kv => decide (kv.Key = ln.1))).map KeyValue.Value) :=
      (hperm.filter _).map _
    refine ⟨_, hval, hp, ?_⟩
    rw [hp.length_eq, List.length_map]

theorem scenarioB_sorted : scenarioB.Pairwise (fun a b => a.Key ≤ b.Key) := by
  have h1 : ("a" : String) ≤ "a" := le_refl _
  have h2 : ("a" : String) ≤ "b" := by
    rw [String.le_iff_toList_le]
    decide
  unfold scenarioB
  refine List.pairwise_cons.mpr ⟨?_, List.pairwise_cons.mpr ⟨?_, List.pairwise_cons.mpr
    ⟨?_, List.Pairwise.nil⟩⟩⟩
  · intro b hb
    simp only [List.mem_cons, List.mem_singleton, List.not_mem_nil, or_false] at hb
    rcases hb with hb | hb
    · subst hb
      exact h1
    · subst hb
      exact h2
  · intro b hb
    simp only [List.mem_singleton] at hb
    subst hb
    exact h2
  · intro b hb
    simp at hb

/-- Instance of C16: scenario B of the specification, the pairs `(a,1)`,
`(a,1)`, `(b,1)` with the counting reduce function; the output file holds the
two lines `a 2` and `b 1`. -/
theorem reducer_output_witness :
    (reducer (reduceTask 1 0 []) scenarioB countValues =
      ("mr-out-" ++ toString (reduceTask 1 0 []).TaskNumber,
       String.join ((reduceLoop countValues scenarioB.length scenarioB).map
         (fun ln => ln.1 ++ " " ++ ln.2 ++ "\n"))) ∧
    ((reduceLoop countValues scenarioB.length scenarioB).map Prod.fst).Pairwise
      (fun a b => a < b) ∧
    (∀ k, k ∈ (reduceLoop countValues scenarioB.length scenarioB).map Prod.fst
      ↔ ∃ kv ∈ scenarioB, kv.Key = k) ∧
    (∀ ln ∈ reduceLoop countValues scenarioB.length scenarioB,
      ∃ vs, ln.2 = countValues ln.1 vs ∧
        vs.Perm ((scenarioB.filter (fun kv => decide (kv.Key = ln.1))).map KeyValue.Value) ∧
        vs.length = (scenarioB.filter (fun kv => decide (kv.Key = ln.1))).length)) ∧
    reducer (reduceTask 1 0 []) scenarioB countValues = ("mr-out-0", "a 2\nb 1\n") :=
  ⟨reducer_output (reduceTask 1 0 []) scenarioB scenarioB countValues
      (List.Perm.refl _) scenarioB_sorted,
   by decide⟩

/-! ## The reducer count and the index size in every execution -/

theorem createMapTaskLoop_NReduce (files : List String) :
    ∀ (idx : Nat) (m m1 : Master), createMapTaskLoop idx files m = .ok m1 →
      m1.NReduce = m.NReduce := by
  induction files with
  | nil =>
    intro idx m m1 h
    simp only [createMapTaskLoop, Except.ok.injEq] at h
    rw [← h]
  | cons f rest ih =>
    intro idx m m1 h
    simp only [createMapTaskLoop] at h
    split at h
    · simp at h
    · rename_i m0 hsend
      obtain ⟨hm0, -⟩ := send_ok hsend
      subst hm0
      have hh := ih (idx + 1) _ m1 h
      exact hh

theorem createReduceTaskLoop_NReduce (slots : List (List String)) :
    ∀ (idx : Nat) (m m1 : Master), createReduceTaskLoop idx slots m = .ok m1 →
      m1.NReduce = m.NReduce := by
  induction slots with
  | nil =>
    intro idx m m1 h
    simp only [createReduceTaskLoop, Except.ok.injEq] at h
    rw [← h]
  | cons f rest ih =>
    intro idx m m1 h
    simp only [createReduceTaskLoop] at h
    split at h
    · simp at h
    · rename_i m0 hsend
      obtain ⟨hm0, -⟩ := send_ok hsend
      subst hm0
      have hh := ih (idx + 1) _ m1 h
      exact hh

theorem MakeMaster_NReduce {files : List String} {nReduce : Int} {m : Master}
    (h : MakeMaster files nReduce = .ok m) : m.NReduce = nReduce := by
  unfold MakeMaster at h
  split at h
  · simp at h
  · split at h
    · simp at h
    · split at h
      · simp at h
      · unfold createMapTask at h
        have hh := createMapTaskLoop_NReduce files 0 _ m h
        exact hh

theorem AssignTask_NReduce {m m1 : Master} {now : Int} {r : Task}
    (h : AssignTask m now = .ok (m1, r)) : m1.NReduce = m.NReduce := by
  unfold AssignTask at h
  split at h
  · split at h
    · simp at h
    · simp only [Except.ok.injEq, Prod.mk.injEq] at h
      rw [← h.1]
  · split at h
    · simp only [Except.ok.injEq, Prod.mk.injEq] at h
      rw [← h.1]
    · simp only [Except.ok.injEq, Prod.mk.injEq] at h
      rw [← h.1]

theorem TaskCompleted_NReduce {m m1 : Master} {t : Task} {sp : Option Task}
    (h : TaskCompleted m t = .ok (m1, sp)) : m1.NReduce = m.NReduce := by
  unfold TaskCompleted at h
  split at h
  · simp only [Except.ok.injEq, Prod.mk.injEq] at h
    rw [← h.1]
  · split at h
    · simp at h
    · split at h
      · simp only [Except.ok.injEq, Prod.mk.injEq] at h
        rw [← h.1]
      · simp only [Except.ok.injEq, Prod.mk.injEq] at h
        rw [← h.1]

theorem scanLoop_NReduce {now : Int} (order : List Int) :
    ∀ {m m1 : Master}, scanLoop now order m = .ok m1 → m1.NReduce = m.NReduce := by
  induction order with
  | nil =>
    intro m m1 h
    simp only [scanLoop, Except.ok.injEq] at h
    rw [← h]
  | cons k ks ih =>
    intro m m1 h
    simp only [scanLoop] at h
    split at h
    · simp at h
    · rename_i m0 h0
      have h00 : m0.NReduce = m.NReduce := by
        unfold scanEntry at h0
        split at h0
        · simp only [Except.ok.injEq] at h0
          rw [← h0]
        · split at h0
          · split at h0
            · simp at h0
            · rename_i m2 hsend
              obtain ⟨hm2, -⟩ := send_ok hsend
              subst hm2
              simp only [Except.ok.injEq] at h0
              rw [← h0]
          · simp only [Except.ok.injEq] at h0
            rw [← h0]
      exact (ih h).trans h00

theorem catchTimeOut_NReduce {now : Int} {order : List Int} {m m1 : Master} {go : Bool}
    (h : catchTimeOut m now order = .ok (m1, go)) : m1.NReduce = m.NReduce := by
  unfold catchTimeOut at h
  split at h
  · simp only [Except.ok.injEq, Prod.mk.injEq] at h
    rw [← h.1]
  · split at h
    · simp at h
    · rename_i m2 hloop
      simp only [Except.ok.injEq, Prod.mk.injEq] at h
      rw [← h.1]
      exact scanLoop_NReduce order hloop

theorem processTaskResult_NReduce {m m1 : Master} {t : Task}
    (h : processTaskResult m t = .ok m1) : m1.NReduce = m.NReduce := by
  unfold processTaskResult at h
  cases hst : t.TaskState with
  | Map =>
    rw [hst] at h
    simp only at h
    split at h
    · simp at h
    · split at h
      · split at h
        · simp at h
        · rename_i m2 hcr
          simp only [Except.ok.injEq] at h
          rw [← h]
          unfold createReduceTask at hcr
          have hh := createReduceTaskLoop_NReduce _ 0 _ m2 hcr
          exact hh
      · simp only [Except.ok.injEq] at h
        rw [← h]
  | Reduce =>
    rw [hst] at h
    simp only at h
    split at h
    · simp only [Except.ok.injEq] at h
      rw [← h]
    · simp only [Except.ok.injEq] at h
      rw [← h]
  | Exit =>
    rw [hst] at h
    simp only [Except.ok.injEq] at h
    rw [← h]
  | Wait =>
    rw [hst] at h
    simp only [Except.ok.injEq] at h
    rw [← h]

theorem step_NReduce {s s1 : Sys} {e : Event} (h : step s e = .ok s1) :
    s1.m.NReduce = s.m.NReduce := by
  cases e with
  | tick d =>
    simp only [step, Except.ok.injEq] at h
    rw [← h]
  | assign =>
    simp only [step] at h
    split at h
    · simp at h
    · rename_i m1 reply hat
      split at h
      · simp only [Except.ok.injEq] at h
        rw [← h]
        exact AssignTask_NReduce hat
      · simp only [Except.ok.injEq] at h
        rw [← h]
        exact AssignTask_NReduce hat
  | report i locs =>
    simp only [step] at h
    split at h
    · simp only [Except.ok.injEq] at h
      rw [← h]
    · split at h
      · simp only [Except.ok.injEq] at h
        rw [← h]
      · unfold Sys.completed at h
        split at h
        · simp at h
        · rename_i m1 htc
          simp only [Except.ok.injEq] at h
          rw [← h]
          exact TaskCompleted_NReduce htc
        · rename_i m1 t1 htc
          simp only [Except.ok.injEq] at h
          rw [← h]
          exact TaskCompleted_NReduce htc
  | call t =>
    simp only [step] at h
    unfold Sys.completed at h
    split at h
    · simp at h
    · rename_i m1 htc
      simp only [Except.ok.injEq] at h
      rw [← h]
      exact TaskCompleted_NReduce htc
    · rename_i m1 t1 htc
      simp only [Except.ok.injEq] at h
      rw [← h]
      exact TaskCompleted_NReduce htc
  | process i =>
    simp only [step] at h
    split at h
    · simp only [Except.ok.injEq] at h
      rw [← h]
    · split at h
      · simp at h
      · rename_i m1 hp
        simp only [Except.ok.injEq] at h
        rw [← h]
        exact processTaskResult_NReduce hp
  | scan order =>
    simp only [step] at h
    split at h
    · simp at h
    · rename_i m1 hct
      simp only [Except.ok.injEq] at h
      rw [← h]
      exact catchTimeOut_NReduce hct
    · rename_i m1 hct
      simp only [Except.ok.injEq] at h
      rw [← h]
      exact catchTimeOut_NReduce hct

/-- In every execution the index has as many slots as the reducer count
stored in the coordinator (the hypothesis of the Map case of
`processTaskResult_transition`). -/
theorem reachable_slots {files : List String} {nReduce : Int} {s : Sys}
    (hs : Reachable files nReduce s) :
    s.m.NReduce = nReduce ∧ s.m.Intermediates.length = s.m.NReduce.toNat := by
  have hn : s.m.NReduce = nReduce := by
    induction hs with
    | start m t0 h => exact MakeMaster_NReduce h
    | next s e s1 _ _ h ih => exact (step_NReduce h).trans ih
  exact ⟨hn, by rw [hn]; exact (inv_reachable hs).slots⟩

end mr
